import Mathlib

/-!
# Toxiproxy `ProxyCollection`: a shallow embedding

The Go type `ProxyCollection` is a mutex-guarded `map[string]*Proxy`.  The
embedding below is sequential: it follows one caller, and no other goroutine
runs between its steps (`Add`, `AddOrReplace`, `Get`, `Proxies`, `Remove` and
`Clear` hold the lock for their whole body; `PopulateJson` and
`PopulateToxicsJson` take it once per call of `AddOrReplace` or `Get`).  The Go
heap is explicit: a `*Proxy` is an address, proxies live in a store, and the
collection's map sends names to addresses.
-/

namespace Toxiproxy

/-- A `*Proxy`: the address of a proxy object in the store. -/
abbrev Ptr := Nat

/-- The fields of the Go struct `Proxy` that `ProxyCollection` reads or writes. -/
structure Proxy where
  Name : String
  Listen : String
  Upstream : String
  Enabled : Bool
  deriving DecidableEq, Repr

/-- Go `error` values that occur in `proxy_collection.go`.  `none : Option Err`
stands for a `nil` error. -/
inductive Err where
  | ErrProxyAlreadyExists
  | ErrProxyNotFound
  | ErrProxyAlreadyStarted
  | ErrMissingField
  | ErrBadRequestBody
  /-- the listener could not be bound -/
  | AddressInUse
  /-- the error of `json.NewDecoder(data).Decode` -/
  | decode
  /-- the value of `fmt.Errorf("<what> at proxy %d", n)` -/
  | errorf (what : String) (n : Nat)
  /-- the value of `joinError(err, wrapper)` -/
  | joinError (err wrapper : Err)
  /-- the value of `fmt.Errorf("Failed to decode toxicConfig: %v", err)` -/
  | decodeToxicConfig (err : Err)
  deriving DecidableEq, Repr

/-- An error wraps `base` when it is `joinError _ base`. -/
def Err.wraps : Err → Err → Bool
  | Err.joinError _ wrapper, base => decide (wrapper = base)
  | _, _ => false

/-- A Go `map[string]*Proxy`, kept as an association list.  The order of the
entries stands for the (unspecified) iteration order of the Go map. -/
structure GoMap where
  entries : List (String × Ptr)
  deriving DecidableEq, Repr

namespace GoMap

/-- `make(map[string]*Proxy)`. -/
def empty : GoMap := ⟨[]⟩

/-- `v, ok := m[k]`. -/
def get (m : GoMap) (k : String) : Option Ptr :=
  m.entries.lookup k

/-- `delete(m, k)`. -/
def delete (m : GoMap) (k : String) : GoMap :=
  ⟨m.entries.filter (fun e => !(e.1 == k))⟩

/-- `m[k] = v`. -/
def set (m : GoMap) (k : String) (v : Ptr) : GoMap :=
  ⟨(k, v) :: (m.delete k).entries⟩

end GoMap

/-- A call of `Proxy.Start` or `Proxy.Stop`, recorded in order of occurrence. -/
inductive Event where
  | start (p : Ptr)
  | stop (p : Ptr)
  deriving DecidableEq, Repr

/-- The struct `ProxyCollection` (its `sync.RWMutex` left out). -/
structure ProxyCollection where
  proxies : GoMap
  deriving DecidableEq, Repr

/-- The program state a `ProxyCollection` method runs in. -/
structure World where
  /-- the proxy objects, by address -/
  heap : Ptr → Proxy
  /-- the next address `NewProxy` hands out -/
  next : Nat
  /-- the collection -/
  collection : ProxyCollection
  /-- the listen addresses that are bound at the moment -/
  bound : List String
  /-- the calls of `Start` and `Stop` made so far -/
  log : List Event
  /-- the maps handed out by `Proxies()`, by handle -/
  maps : List GoMap

/-- Assignment to the object at address `p`. -/
def World.store (w : World) (p : Ptr) (v : Proxy) : World :=
  { w with heap := fun q => if q = p then v else w.heap q }

/-- A Go value of type `map[string]*Proxy` is a reference to a map object:
`live` is the map object of the collection, the one every method reads and
writes through `collection.proxies`; `copy i` is the `i`-th map object made by
`Proxies()`. -/
inductive MapRef where
  | live
  | copy (i : Nat)
  deriving DecidableEq, Repr

/-- What a holder of the reference `r` sees in the state `w`. -/
def World.deref (w : World) : MapRef → Option GoMap
  | MapRef.live => some w.collection.proxies
  | MapRef.copy i => w.maps[i]?

/-- Modelled from the spec: `NewProxy` (proxy.go is not among the sources).  It
allocates a proxy object that is not enabled. -/
def NewProxy (w : World) : World × Ptr :=
  ({ w with heap := fun q => if q = w.next then ⟨"", "", "", false⟩ else w.heap q,
            next := w.next + 1 }, w.next)

/-- Modelled from the spec: `Proxy.Start` (proxy.go is not among the sources).
"Binds the listening socket; fails with AddressInUse if the bind fails,
AlreadyStarted if already enabled.  On success sets enabled=true". -/
def Proxy.Start (w : World) (p : Ptr) : World × Option Err :=
  let w1 := { w with log := w.log ++ [Event.start p] }
  if (w.heap p).Enabled then (w1, some Err.ErrProxyAlreadyStarted)
  else if (w.heap p).Listen ∈ w.bound then (w1, some Err.AddressInUse)
  else ({ w1.store p { w.heap p with Enabled := true } with
            bound := (w.heap p).Listen :: w.bound }, none)

/-- Modelled from the spec: `Proxy.Stop` (proxy.go is not among the sources).
"Idempotent — closing an already-stopped or never-started Proxy succeeds
trivially.  Closes the listener"; it never fails. -/
def Proxy.Stop (w : World) (p : Ptr) : World :=
  let w1 := { w with log := w.log ++ [Event.stop p] }
  if (w.heap p).Enabled then
    { w1.store p { w.heap p with Enabled := false } with
        bound := w.bound.erase (w.heap p).Listen }
  else w1

namespace ProxyCollection

/-- `NewProxyCollection`: a collection with an empty map. -/
def NewProxyCollection : ProxyCollection :=
  { proxies := GoMap.empty }

/-- `collection.proxies[k] = v`. -/
def setProxy (w : World) (k : String) (v : Ptr) : World :=
  { w with collection := { proxies := w.collection.proxies.set k v } }

/-- `delete(collection.proxies, k)`. -/
def deleteProxy (w : World) (k : String) : World :=
  { w with collection := { proxies := w.collection.proxies.delete k } }

/-- `ProxyCollection.Add`. -/
def Add (w : World) (proxy : Ptr) (start : Bool) : World × Option Err :=
  if (w.collection.proxies.get (w.heap proxy).Name).isSome then
    (w, some Err.ErrProxyAlreadyExists)
  else if start then
    match Proxy.Start w proxy with
    | (w1, some err) => (w1, some err)
    | (w1, none) => (setProxy w1 (w1.heap proxy).Name proxy, none)
  else
    (setProxy w (w.heap proxy).Name proxy, none)

/-- `ProxyCollection.AddOrReplace`. -/
def AddOrReplace (w : World) (proxy : Ptr) (start : Bool) : World × Option Err :=
  let finish (w0 : World) : World × Option Err :=
    if start then
      match Proxy.Start w0 proxy with
      | (w1, some err) => (w1, some err)
      | (w1, none) => (setProxy w1 (w1.heap proxy).Name proxy, none)
    else
      (setProxy w0 (w0.heap proxy).Name proxy, none)
  match w.collection.proxies.get (w.heap proxy).Name with
  | some existing =>
    if (w.heap existing).Listen = (w.heap proxy).Listen
        ∧ (w.heap existing).Upstream = (w.heap proxy).Upstream then
      (w, none)
    else
      finish (Proxy.Stop w existing)
  | none => finish w

/-- `ProxyCollection.getByName`. -/
def getByName (w : World) (name : String) : Except Err Ptr :=
  match w.collection.proxies.get name with
  | none => Except.error Err.ErrProxyNotFound
  | some proxy => Except.ok proxy

/-- `ProxyCollection.Get`. -/
def Get (w : World) (name : String) : Except Err Ptr :=
  getByName w name

/-- `ProxyCollection.Remove`. -/
def Remove (w : World) (name : String) : World × Option Err :=
  match getByName w name with
  | Except.error err => (w, some err)
  | Except.ok proxy =>
    let w1 := Proxy.Stop w proxy
    (deleteProxy w1 (w1.heap proxy).Name, none)

/-- The loop of `Clear`, over the entries the map had when the loop began.  An
entry that was deleted before the loop reached it is not produced. -/
def clearLoop : List (String × Ptr) → World → World
  | [], w => w
  | (k, proxy) :: rest, w =>
    if w.collection.proxies.get k = some proxy then
      let w1 := Proxy.Stop w proxy
      clearLoop rest (deleteProxy w1 (w1.heap proxy).Name)
    else
      clearLoop rest w

/-- `ProxyCollection.Clear`. -/
def Clear (w : World) : World × Option Err :=
  (clearLoop w.collection.proxies.entries w, none)

/-- `ProxyCollection.Proxies`: `make` allocates a new map object, the loop fills
it, and the reference to it is returned.  The loop `for k, v := range collection.proxies` produces
the pairs `k, v` with `v` stored under `k`: an entry of the list that an earlier
one with the same key shadows is not an element of the map. -/
def Proxies (w : World) : World × MapRef :=
  let proxies := w.collection.proxies.entries.foldl
    (fun m e => if w.collection.proxies.get e.1 = some e.2 then m.set e.1 e.2 else m)
    GoMap.empty
  ({ w with maps := w.maps ++ [proxies] }, MapRef.copy w.maps.length)

/-- A call of one of the mutating methods of the collection. -/
inductive Call where
  | add (proxy : Ptr) (start : Bool)
  | addOrReplace (proxy : Ptr) (start : Bool)
  | remove (name : String)
  | clear
  deriving DecidableEq, Repr

/-- The state after a call. -/
def Call.run (w : World) : Call → World
  | Call.add proxy start => (Add w proxy start).1
  | Call.addOrReplace proxy start => (AddOrReplace w proxy start).1
  | Call.remove name => (Remove w name).1
  | Call.clear => (Clear w).1

/-- The state after a sequence of calls, made in order. -/
def runCalls (calls : List Call) (w : World) : World :=
  calls.foldl Call.run w

/-- One element of the decoded `input` slice of `PopulateJson`: the embedded
`Proxy` fields and the nullable `Enabled *bool` that overrides `Proxy.Enabled`. -/
structure Input where
  Name : String
  Listen : String
  Upstream : String
  Enabled : Option Bool
  deriving DecidableEq, Repr

/-- The assignment `input[i].Enabled = &t` of the first loop, made when
`p.Enabled == nil`. -/
def defaultEnabled (p : Input) : Input :=
  { p with Enabled := if p.Enabled.isNone then some true else p.Enabled }

/-- The first loop of `PopulateJson` from index `i` on: it checks every entry
and writes `&t` into a nil `Enabled`; the result is the slice after the loop. -/
def validate : Nat → List Input → Except Err (List Input)
  | _, [] => Except.ok []
  | i, p :: rest =>
    if p.Name.length < 1 then
      Except.error (Err.joinError (Err.errorf "name" (i + 1)) Err.ErrMissingField)
    else if p.Upstream.length < 1 then
      Except.error (Err.joinError (Err.errorf "upstream" (i + 1)) Err.ErrMissingField)
    else
      match validate (i + 1) rest with
      | Except.error err => Except.error err
      | Except.ok rest1 =>
        Except.ok (defaultEnabled p :: rest1)

/-- The body of the second loop of `PopulateJson` up to the call of
`AddOrReplace`: `NewProxy()` and the three field assignments. -/
def createProxy (w : World) (p : Input) : World × Ptr :=
  let (w1, proxy) := NewProxy w
  let w2 := w1.store proxy { w1.heap proxy with Name := p.Name }
  let w3 := w2.store proxy { w2.heap proxy with Listen := p.Listen }
  let w4 := w3.store proxy { w3.heap proxy with Upstream := p.Upstream }
  (w4, proxy)

/-- The second loop of `PopulateJson`; `acc` is the slice `proxies` so far.
After `validate` no `Enabled` is nil, so the dereference `*p.Enabled` finds a
value. -/
def populateLoop : List Input → World → List Ptr → World × List Ptr × Option Err
  | [], w, acc => (w, acc, none)
  | p :: rest, w, acc =>
    match AddOrReplace (createProxy w p).1 (createProxy w p).2 (p.Enabled.getD false) with
    | (w5, some err) => (w5, acc, some err)
    | (w5, none) => populateLoop rest w5 (acc ++ [(createProxy w p).2])

/-- `ProxyCollection.PopulateJson` on the outcome of decoding `data`: `none` when
the decoder fails, the decoded slice otherwise.  A `nil` slice of proxies is
`none`. -/
def PopulateJson (w : World) (data : Option (List Input)) :
    World × Option (List Ptr) × Option Err :=
  match data with
  | none => (w, none, some (Err.joinError Err.decode Err.ErrBadRequestBody))
  | some input =>
    match validate 0 input with
    | Except.error err => (w, none, some err)
    | Except.ok input1 =>
      match populateLoop input1 w [] with
      | (w1, proxies, err) => (w1, some proxies, err)

end ProxyCollection

/-! ## `PopulateToxicsJson` -/

/-- The element type of the slice `toxicConfig` of `PopulateToxicsJson`; `J` is
`toxics.ToxicJSON`. -/
structure ToxicConfig (J : Type) where
  Name : String
  Toxics : List J

/-- What `PopulateToxicsJson` calls and is not among the sources.  `S` is the
state of the toxic collections of all proxies, `J` is `toxics.ToxicJSON`, `B` the
marshalled bytes and `T` is `*toxics.ToxicWrapper`. -/
structure ToxicOps (S J B T : Type) where
  /-- `json.Marshal(t)`; `none` is a non-nil error -/
  Marshal : J → Option B
  /-- `proxy.Toxics.AddToxicJson(strings.NewReader(string(data)))` for the proxy at
  the given address; `none` is a non-nil error -/
  AddToxicJson : S → Ptr → B → S × Option T

namespace ProxyCollection

/-- The inner loop of `PopulateToxicsJson` over `p.Toxics`; `acc` is `toxicList`.
Either error is logged and breaks the loop. -/
def toxicLoop {S J B T : Type} (ops : ToxicOps S J B T) (proxy : Ptr) :
    List J → S → List T → S × List T
  | [], s, acc => (s, acc)
  | t :: rest, s, acc =>
    match ops.Marshal t with
    | none => (s, acc)
    | some data =>
      match ops.AddToxicJson s proxy data with
      | (s1, none) => (s1, acc)
      | (s1, some toxic) => toxicLoop ops proxy rest s1 (acc ++ [toxic])

/-- The outer loop of `PopulateToxicsJson` over `toxicConfig`.  A name that `Get`
does not find is logged and breaks the loop. -/
def proxyLoop {S J B T : Type} (ops : ToxicOps S J B T) (w : World) :
    List (ToxicConfig J) → S → List T → S × List T
  | [], s, acc => (s, acc)
  | p :: rest, s, acc =>
    match Get w p.Name with
    | Except.error _ => (s, acc)
    | Except.ok proxy =>
      proxyLoop ops w rest (toxicLoop ops proxy p.Toxics s acc).1
        (toxicLoop ops proxy p.Toxics s acc).2

/-- `ProxyCollection.PopulateToxicsJson` on the outcome of decoding `data`: `none`
when the decoder fails, the decoded slice otherwise.  A `nil` list is `none`. -/
def PopulateToxicsJson {S J B T : Type} (ops : ToxicOps S J B T) (w : World) (s : S)
    (data : Option (List (ToxicConfig J))) : S × Option (List T) × Option Err :=
  match data with
  | none => (s, none, some (Err.decodeToxicConfig Err.decode))
  | some toxicConfig =>
    ((proxyLoop ops w toxicConfig s []).1, some (proxyLoop ops w toxicConfig s []).2, none)

/-- Every toxic of the list is accepted when the inner loop reaches it. -/
def toxicsAccepted {S J B T : Type} (ops : ToxicOps S J B T) (proxy : Ptr) :
    List J → S → Bool
  | [], _ => true
  | t :: rest, s =>
    match ops.Marshal t with
    | none => false
    | some data =>
      match ops.AddToxicJson s proxy data with
      | (_, none) => false
      | (s1, some _) => toxicsAccepted ops proxy rest s1

/-- Every name of the configuration is registered and every toxic is accepted
when the loops reach it. -/
def configAccepted {S J B T : Type} (ops : ToxicOps S J B T) (w : World) :
    List (ToxicConfig J) → S → Bool
  | [], _ => true
  | p :: rest, s =>
    match Get w p.Name with
    | Except.error _ => false
    | Except.ok proxy =>
      toxicsAccepted ops proxy p.Toxics s
        && configAccepted ops w rest (toxicLoop ops proxy p.Toxics s []).1

/-- The toxics of the list are added to the proxy one after another, from the
state `s` to the state `s1`; `xs` are the toxics `AddToxicJson` returned for
them, in order. -/
def AddedInOrder {S J B T : Type} (ops : ToxicOps S J B T) (proxy : Ptr) :
    List J → S → S → List T → Prop
  | [], s, s1, xs => s1 = s ∧ xs = []
  | t :: rest, s, s1, xs =>
    ∃ data s0 x xs0, ops.Marshal t = some data ∧
      ops.AddToxicJson s proxy data = (s0, some x) ∧ xs = x :: xs0 ∧
      AddedInOrder ops proxy rest s0 s1 xs0

/-- The toxic `t` is rejected in the state `s`: `json.Marshal` fails, or
`AddToxicJson` returns an error, leaving the state `s1`. -/
def Rejected {S J B T : Type} (ops : ToxicOps S J B T) (proxy : Ptr) (t : J) (s s1 : S) :
    Prop :=
  (ops.Marshal t = none ∧ s1 = s) ∨
    ∃ data, ops.Marshal t = some data ∧ ops.AddToxicJson s proxy data = (s1, none)

/-- What is to happen to one entry of the configuration: its toxics are added in
order up to the first one that is rejected, and the toxics after that one are
skipped.  `xs` are the toxics added and `s1` is the state afterwards. -/
def EntryDone {S J B T : Type} (ops : ToxicOps S J B T) (proxy : Ptr) (toxics : List J)
    (s s1 : S) (xs : List T) : Prop :=
  ∃ (added skipped : List J) (s0 : S), toxics = added ++ skipped ∧
    AddedInOrder ops proxy added s s0 xs ∧
    ((skipped = [] ∧ s1 = s0) ∨
      ∃ t rest, skipped = t :: rest ∧ Rejected ops proxy t s0 s1)

/-- What is to happen to a run of entries whose names are all registered: each
entry is done in turn, whether or not a toxic of the entry before was rejected,
and `xs` are the toxics added, in order. -/
def EntriesDone {S J B T : Type} (ops : ToxicOps S J B T) (w : World) :
    List (ToxicConfig J) → S → S → List T → Prop
  | [], s, s1, xs => s1 = s ∧ xs = []
  | c :: rest, s, s1, xs =>
    ∃ proxy s0 xs0 xs1, w.collection.proxies.get c.Name = some proxy ∧
      EntryDone ops proxy c.Toxics s s0 xs0 ∧
      EntriesDone ops w rest s0 s1 xs1 ∧ xs = xs0 ++ xs1

end ProxyCollection

/-- The direction of a stream. -/
inductive Direction where
  | upstream
  | downstream
  deriving DecidableEq, Repr

/-- The toxic-JSON record of the spec; `Kind` is its field `type`, and the
toxicity, a fraction in [0,1], is kept as numerator and denominator. -/
structure ToxicJSON where
  Name : String
  Kind : String
  Stream : Direction
  Toxicity : Nat × Nat
  Attributes : List (String × Int)
  deriving DecidableEq, Repr

/-- The `ToxicWrapper` of the spec. -/
structure ToxicWrapper where
  Name : String
  Kind : String
  Stream : Direction
  Toxicity : Nat × Nat
  Attributes : List (String × Int)
  Enabled : Bool
  deriving DecidableEq, Repr

/-- The failures of `AddToxic` in the spec. -/
inductive ToxicErr where
  | DuplicateName
  | UnknownKind
  deriving DecidableEq, Repr

/-- The toxic collections of all proxies: for a proxy and a direction, the
ordered sequence of its toxics. -/
abbrev ToxicStore := Ptr → Direction → List ToxicWrapper

/-- Modelled from the spec: `ToxicCollection.AddToxicJson` (the toxic collection is
not among the sources).  "Fails DuplicateName if name already present in that
direction; fails UnknownKind if the kind is not registered"; otherwise the toxic
is appended to the sequence of its direction.  `kinds` is the kind registry. -/
def AddToxic (kinds : List String) (s : ToxicStore) (proxy : Ptr) (t : ToxicJSON) :
    ToxicStore × Except ToxicErr ToxicWrapper :=
  if (s proxy t.Stream).any (fun x => x.Name == t.Name) then
    (s, Except.error ToxicErr.DuplicateName)
  else if !(kinds.contains t.Kind) then
    (s, Except.error ToxicErr.UnknownKind)
  else
    (fun q d => if q = proxy ∧ d = t.Stream then
        s q d ++ [⟨t.Name, t.Kind, t.Stream, t.Toxicity, t.Attributes, true⟩]
      else s q d,
     Except.ok ⟨t.Name, t.Kind, t.Stream, t.Toxicity, t.Attributes, true⟩)

/-- Modelled from the spec: the toxic operations `PopulateToxicsJson` calls, with
`AddToxic` of the spec behind `AddToxicJson`; marshalling a decoded record and
reading it back gives the record. -/
def specToxicOps (kinds : List String) : ToxicOps ToxicStore ToxicJSON ToxicJSON ToxicWrapper :=
  { Marshal := fun t => some t
    AddToxicJson := fun s proxy t =>
      match AddToxic kinds s proxy t with
      | (s1, Except.ok toxic) => (s1, some toxic)
      | (s1, Except.error _) => (s1, none) }

/-- Two proxy objects agree on `Name`, `Listen` and `Upstream`. -/
def sameFields (a b : Proxy) : Prop :=
  a.Name = b.Name ∧ a.Listen = b.Listen ∧ a.Upstream = b.Upstream

/-- The registry invariant: every key of the map is the `Name` of the proxy
stored under it. -/
def KeysAreNames (w : World) : Prop :=
  ∀ e ∈ w.collection.proxies.entries,
    w.collection.proxies.get e.1 = some e.2 → (w.heap e.2).Name = e.1

instance (w : World) : Decidable (KeysAreNames w) := by
  unfold KeysAreNames
  infer_instance

/-- Every proxy stored in the map is an object that has been allocated: its
address lies below the next address `NewProxy` hands out. -/
def Allocated (w : World) : Prop :=
  ∀ e ∈ w.collection.proxies.entries,
    w.collection.proxies.get e.1 = some e.2 → e.2 < w.next

instance (w : World) : Decidable (Allocated w) := by
  unfold Allocated
  infer_instance

/-- The states a collection can be in: a new collection, then calls of `Add`,
`AddOrReplace`, `PopulateJson`, `Remove` and `Clear` on allocated proxies, and
steps of the rest of the program.  Those steps cannot write the unexported map;
they may allocate objects and assign any field, the `Name` of a proxy that is
stored in the map excepted. -/
inductive Reachable : World → Prop where
  | new (w : World) : w.collection = ProxyCollection.NewProxyCollection → Reachable w
  | add (w : World) (proxy : Ptr) (start : Bool) :
      Reachable w → proxy < w.next → Reachable (ProxyCollection.Add w proxy start).1
  | addOrReplace (w : World) (proxy : Ptr) (start : Bool) :
      Reachable w → proxy < w.next → Reachable (ProxyCollection.AddOrReplace w proxy start).1
  | populateJson (w : World) (data : Option (List ProxyCollection.Input)) :
      Reachable w → Reachable (ProxyCollection.PopulateJson w data).1
  | remove (w : World) (name : String) :
      Reachable w → Reachable (ProxyCollection.Remove w name).1
  | clear (w : World) : Reachable w → Reachable (ProxyCollection.Clear w).1
  | outside (w w1 : World) :
      Reachable w → w1.collection = w.collection → w.next ≤ w1.next →
      (∀ (k : String) (q : Ptr), w.collection.proxies.get k = some q →
        (w1.heap q).Name = (w.heap q).Name) →
      Reachable w1

/-- A state with three allocated proxy objects and a new collection. -/
def exNew : World :=
  { heap := fun q =>
      if q = 0 then ⟨"a", "l0", "u0", false⟩
      else if q = 1 then ⟨"b", "l1", "u1", false⟩
      else ⟨"c", "l2", "u2", false⟩
    next := 3
    collection := ProxyCollection.NewProxyCollection
    bound := []
    log := []
    maps := [] }

/-- The state after `a` was added to the new collection of `exNew` and started,
and `b` was added. -/
def exTwo : World :=
  (ProxyCollection.Add (ProxyCollection.Add exNew 0 true).1 1 false).1

/-- The state `exTwo` after `c` was added as well. -/
def exThree : World :=
  (ProxyCollection.Add exTwo 2 false).1

/-! ## Example states -/

/-- A proxy object with the given fields. -/
def mkProxy (name listen upstream : String) (enabled : Bool) : Proxy :=
  { Name := name, Listen := listen, Upstream := upstream, Enabled := enabled }

/-- A state of three proxy objects: `a` at address 0 is registered and runs on
`l0`; the object at address 1 is also named `a` and wants `l1`; `b` at address
2 is not registered and does not run. -/
def exWorld : World :=
  { heap := fun q =>
      if q = 0 then mkProxy "a" "l0" "u0" true
      else if q = 1 then mkProxy "a" "l1" "u1" false
      else mkProxy "b" "l2" "u2" false
    next := 3
    collection := { proxies := ⟨[("a", 0)]⟩ }
    bound := ["l0"]
    log := []
    maps := [] }

/-- The state `exWorld` with the address `l1` bound as well, by a listener that
is not one of the three proxies. -/
def exBusy : World :=
  { exWorld with bound := ["l0", "l1"] }

/-- A batch whose second entry has no upstream; the first entry is valid. -/
def exBadBatch : List ProxyCollection.Input :=
  [{ Name := "c", Listen := "l3", Upstream := "u3", Enabled := none },
   { Name := "d", Listen := "l4", Upstream := "", Enabled := some true }]

/-- A batch of three valid entries with distinct names; the second entry asks
for the listen address of the first, and both are to be started. -/
def exClashBatch : List ProxyCollection.Input :=
  [{ Name := "c", Listen := "l3", Upstream := "u3", Enabled := none },
   { Name := "d", Listen := "l3", Upstream := "u4", Enabled := some true },
   { Name := "e", Listen := "l5", Upstream := "u5", Enabled := some false }]

/-- The state `exWorld` with the address `l2`, which the unregistered proxy `b`
wants, bound by another listener. -/
def exTaken : World :=
  { exWorld with bound := ["l0", "l2"] }

/-- A batch of one entry that repeats the name, listen address and upstream of
the proxy registered as `a` in `exWorld`. -/
def exSameBatch : List ProxyCollection.Input :=
  [{ Name := "a", Listen := "l0", Upstream := "u0", Enabled := none }]

/-- A batch of two valid entries with the same name and different listen
addresses. -/
def exTwiceBatch : List ProxyCollection.Input :=
  [{ Name := "c", Listen := "l3", Upstream := "u3", Enabled := some false },
   { Name := "c", Listen := "l4", Upstream := "u4", Enabled := some false }]

/-- A batch of two valid entries with distinct names; the first replaces the
proxy registered as `a` in `exWorld`, the second is new. -/
def exGoodBatch : List ProxyCollection.Input :=
  [{ Name := "a", Listen := "l3", Upstream := "u3", Enabled := none },
   { Name := "d", Listen := "l4", Upstream := "u4", Enabled := some false }]

/-- The kind registry of the examples. -/
def exKinds : List String := ["latency", "limit_data"]

/-- A state of the toxic collections in which no proxy has a toxic. -/
def exNoToxics : ToxicStore := fun _ _ => []

/-- A latency toxic and a data-limit toxic on the downstream direction. -/
def exLatency : ToxicJSON :=
  { Name := "latency_downstream", Kind := "latency", Stream := Direction.downstream,
    Toxicity := (1, 1), Attributes := [("latency", 100), ("jitter", 0)] }

/-- A data-limit toxic on the downstream direction. -/
def exLimit : ToxicJSON :=
  { Name := "limit_data_downstream", Kind := "limit_data", Stream := Direction.downstream,
    Toxicity := (1, 2), Attributes := [("bytes", 100)] }

/-- A configuration of two toxics for the proxy registered as `a` in `exWorld`. -/
def exToxicConfig : List (ToxicConfig ToxicJSON) :=
  [{ Name := "a", Toxics := [exLatency, exLimit] }]

/-- A configuration for `exWorld`.  The first entry has two toxics that are
accepted, then one that repeats a name, then one more; the second entry is
accepted; the third entry names a proxy that is not registered; the fourth
entry would be accepted. -/
def exMixedConfig : List (ToxicConfig ToxicJSON) :=
  [{ Name := "a", Toxics := [exLatency, exLimit, exLatency, { exLimit with Name := "late" }] },
   { Name := "a", Toxics := [{ exLimit with Name := "other" }] },
   { Name := "zz", Toxics := [exLimit] },
   { Name := "a", Toxics := [{ exLimit with Name := "last" }] }]

/-! ## The map -/

namespace GoMap

theorem get_empty (k : String) : GoMap.empty.get k = none := rfl

theorem get_delete_self (m : GoMap) (k : String) : (m.delete k).get k = none := by
  obtain ⟨l⟩ := m
  simp only [GoMap.get, GoMap.delete]
  induction l with
  | nil => rfl
  | cons e l ih =>
    obtain ⟨a, v⟩ := e
    by_cases h : a = k
    · simp [List.filter_cons, h, ih]
    · have h2 : (k == a) = false := beq_false_of_ne (fun x => h x.symm)
      simp [List.filter_cons, h, List.lookup_cons, h2, ih]

theorem get_delete_of_ne (m : GoMap) (k j : String) (h : j ≠ k) :
    (m.delete k).get j = m.get j := by
  obtain ⟨l⟩ := m
  simp only [GoMap.get, GoMap.delete]
  induction l with
  | nil => rfl
  | cons e l ih =>
    obtain ⟨a, v⟩ := e
    by_cases h1 : a = k
    · subst h1
      have h3 : (j == a) = false := beq_false_of_ne h
      simp [List.filter_cons, List.lookup_cons, h3, ih]
    · by_cases h2 : j = a
      · subst h2
        simp [List.filter_cons, h1, List.lookup_cons]
      · have h3 : (j == a) = false := beq_false_of_ne h2
        simp [List.filter_cons, h1, List.lookup_cons, h3, ih]

theorem get_set_self (m : GoMap) (k : String) (v : Ptr) : (m.set k v).get k = some v := by
  simp [GoMap.get, GoMap.set, List.lookup_cons]

theorem get_set_of_ne (m : GoMap) (k j : String) (v : Ptr) (h : j ≠ k) :
    (m.set k v).get j = m.get j := by
  have := get_delete_of_ne m k j h
  simp only [GoMap.get] at this
  have h3 : (j == k) = false := beq_false_of_ne h
  simp [GoMap.get, GoMap.set, List.lookup_cons, h3, this]

theorem mem_of_get (m : GoMap) (k : String) (v : Ptr) (h : m.get k = some v) :
    (k, v) ∈ m.entries := by
  obtain ⟨l⟩ := m
  simp only [GoMap.get] at h
  induction l with
  | nil => simp at h
  | cons e l ih =>
    obtain ⟨a, u⟩ := e
    by_cases hk : k = a
    · subst hk
      simp [List.lookup_cons] at h
      simp [h]
    · have h3 : (k == a) = false := beq_false_of_ne hk
      simp only [List.lookup_cons, h3] at h
      simp [ih h]

theorem get_delete_sub (m : GoMap) (j k : String) (v : Ptr)
    (h : (m.delete j).get k = some v) : m.get k = some v := by
  by_cases hk : k = j
  · subst hk
    rw [get_delete_self] at h
    simp at h
  · rwa [get_delete_of_ne m j k hk] at h

theorem eq_empty_of_get (m : GoMap) (h : ∀ k, m.get k = none) : m = GoMap.empty := by
  obtain ⟨l⟩ := m
  cases l with
  | nil => rfl
  | cons e l =>
    have := h e.1
    simp [GoMap.get, List.lookup_cons] at this

end GoMap

/-! ## What `Start` and `Stop` leave alone -/

theorem Stop_collection (w : World) (p : Ptr) : (Proxy.Stop w p).collection = w.collection := by
  unfold Proxy.Stop
  split <;> rfl

theorem Stop_log (w : World) (p : Ptr) : (Proxy.Stop w p).log = w.log ++ [Event.stop p] := by
  unfold Proxy.Stop
  split <;> rfl

theorem Stop_maps (w : World) (p : Ptr) : (Proxy.Stop w p).maps = w.maps := by
  unfold Proxy.Stop
  split <;> rfl

theorem Stop_next (w : World) (p : Ptr) : (Proxy.Stop w p).next = w.next := by
  unfold Proxy.Stop
  split <;> rfl

theorem Stop_heap_of_ne (w : World) (p q : Ptr) (h : q ≠ p) :
    (Proxy.Stop w p).heap q = w.heap q := by
  unfold Proxy.Stop
  split
  · simp [World.store, h]
  · rfl

theorem Stop_heap_self (w : World) (p : Ptr) :
    (Proxy.Stop w p).heap p = { w.heap p with Enabled := false } := by
  unfold Proxy.Stop
  split
  · simp [World.store]
  · next h =>
    have h1 : (w.heap p).Enabled = false := by simpa using h
    show w.heap p = _
    rw [← h1]

theorem Stop_Name (w : World) (p q : Ptr) : ((Proxy.Stop w p).heap q).Name = (w.heap q).Name := by
  by_cases h : q = p
  · subst h
    rw [Stop_heap_self]
  · rw [Stop_heap_of_ne w p q h]

theorem Stop_Listen (w : World) (p q : Ptr) :
    ((Proxy.Stop w p).heap q).Listen = (w.heap q).Listen := by
  by_cases h : q = p
  · subst h
    rw [Stop_heap_self]
  · rw [Stop_heap_of_ne w p q h]

theorem Stop_Upstream (w : World) (p q : Ptr) :
    ((Proxy.Stop w p).heap q).Upstream = (w.heap q).Upstream := by
  by_cases h : q = p
  · subst h
    rw [Stop_heap_self]
  · rw [Stop_heap_of_ne w p q h]

theorem Start_collection (w : World) (p : Ptr) :
    (Proxy.Start w p).1.collection = w.collection := by
  unfold Proxy.Start
  split
  · rfl
  · split <;> rfl

theorem Start_log (w : World) (p : Ptr) :
    (Proxy.Start w p).1.log = w.log ++ [Event.start p] := by
  unfold Proxy.Start
  split
  · rfl
  · split <;> rfl

theorem Start_maps (w : World) (p : Ptr) : (Proxy.Start w p).1.maps = w.maps := by
  unfold Proxy.Start
  split
  · rfl
  · split <;> rfl

theorem Start_next (w : World) (p : Ptr) : (Proxy.Start w p).1.next = w.next := by
  unfold Proxy.Start
  split
  · rfl
  · split <;> rfl

theorem Start_heap_of_ne (w : World) (p q : Ptr) (h : q ≠ p) :
    (Proxy.Start w p).1.heap q = w.heap q := by
  unfold Proxy.Start
  split
  · rfl
  · split
    · rfl
    · simp [World.store, h]

theorem Start_Name (w : World) (p q : Ptr) :
    ((Proxy.Start w p).1.heap q).Name = (w.heap q).Name := by
  unfold Proxy.Start
  split
  · rfl
  · split
    · rfl
    · by_cases h : q = p
      · subst h
        simp [World.store]
      · simp [World.store, h]

theorem sameFields_refl (a : Proxy) : sameFields a a := ⟨rfl, rfl, rfl⟩

theorem sameFields_trans {a b c : Proxy} (h1 : sameFields a b) (h2 : sameFields b c) :
    sameFields a c :=
  ⟨h1.1.trans h2.1, h1.2.1.trans h2.2.1, h1.2.2.trans h2.2.2⟩

theorem Stop_sameFields (w : World) (p q : Ptr) :
    sameFields ((Proxy.Stop w p).heap q) (w.heap q) :=
  ⟨Stop_Name w p q, Stop_Listen w p q, Stop_Upstream w p q⟩

theorem Start_sameFields (w : World) (p q : Ptr) :
    sameFields ((Proxy.Start w p).1.heap q) (w.heap q) := by
  unfold Proxy.Start
  split
  · exact sameFields_refl _
  · split
    · exact sameFields_refl _
    · by_cases h : q = p
      · subst h
        simp [World.store, sameFields]
      · simp [World.store, h, sameFields]

/-! ## `Add` -/

namespace ProxyCollection

/-- C1: when the collection holds a proxy under the name of `p`, `Add(p, start)`
returns `ErrProxyAlreadyExists` for either value of `start` and the state is the
one before the call: the contents are unchanged and no call of `Start` is
recorded. -/
theorem Add_registered_name (w : World) (p e : Ptr) (n : String) (start : Bool)
    (he : w.collection.proxies.get n = some e) (hp : (w.heap p).Name = n) :
    (Add w p start).2 = some Err.ErrProxyAlreadyExists ∧
    (Add w p start).1 = w ∧
    (Add w p start).1.collection = w.collection ∧
    (Add w p start).1.log = w.log := by
  have h : Add w p start = (w, some Err.ErrProxyAlreadyExists) := by
    unfold Add
    rw [hp, he]
    rfl
  rw [h]
  exact ⟨rfl, rfl, rfl, rfl⟩

theorem Add_registered_name_witness :
    exWorld.collection.proxies.get "a" = some 0 ∧ (exWorld.heap 1).Name = "a" ∧
    (Add exWorld 1 true).2 = some Err.ErrProxyAlreadyExists ∧
    (Add exWorld 1 true).1.log = exWorld.log :=
  ⟨by decide, by decide,
    (Add_registered_name exWorld 1 0 "a" true (by decide) (by decide)).1,
    (Add_registered_name exWorld 1 0 "a" true (by decide) (by decide)).2.2.2⟩

theorem Add_false_eq (w : World) (p : Ptr)
    (h : w.collection.proxies.get (w.heap p).Name = none) :
    Add w p false = (setProxy w (w.heap p).Name p, none) := by
  unfold Add
  rw [h]
  rfl

/-- C2: when the name of `p` is not registered, `Add(p, false)` returns nil,
afterwards `Get(p.Name)` returns `p` and `Get` of every other name returns what it
returned before; `Get` of any name fails on a new collection; and two proxies
with distinct unregistered names can both be added. -/
theorem Add_unregistered_name :
    (∀ (w : World) (p : Ptr), w.collection.proxies.get (w.heap p).Name = none →
      (Add w p false).2 = none ∧
      Get (Add w p false).1 (w.heap p).Name = Except.ok p ∧
      ∀ k : String, k ≠ (w.heap p).Name → Get (Add w p false).1 k = Get w k) ∧
    (∀ (w : World) (k : String), w.collection = NewProxyCollection →
      Get w k = Except.error Err.ErrProxyNotFound) ∧
    (∀ (w : World) (p q : Ptr), w.collection.proxies.get (w.heap p).Name = none →
      w.collection.proxies.get (w.heap q).Name = none →
      (w.heap p).Name ≠ (w.heap q).Name →
      (Add w p false).2 = none ∧ (Add (Add w p false).1 q false).2 = none ∧
      Get (Add (Add w p false).1 q false).1 (w.heap p).Name = Except.ok p ∧
      Get (Add (Add w p false).1 q false).1 (w.heap q).Name = Except.ok q) := by
  refine ⟨?_, ?_, ?_⟩
  · intro w p h
    rw [Add_false_eq w p h]
    refine ⟨rfl, ?_, ?_⟩
    · simp [Get, getByName, setProxy, GoMap.get_set_self]
    · intro k hk
      simp [Get, getByName, setProxy, GoMap.get_set_of_ne _ _ _ _ hk]
  · intro w k h
    simp [Get, getByName, h, NewProxyCollection, GoMap.get_empty]
  · intro w p q hp hq hne
    rw [Add_false_eq w p hp]
    have hq1 : (setProxy w (w.heap p).Name p).collection.proxies.get
        ((setProxy w (w.heap p).Name p).heap q).Name = none := by
      show (w.collection.proxies.set (w.heap p).Name p).get (w.heap q).Name = none
      rw [GoMap.get_set_of_ne _ _ _ _ (fun x => hne x.symm), hq]
    rw [Add_false_eq _ q hq1]
    refine ⟨rfl, rfl, ?_, ?_⟩
    · show getByName (setProxy (setProxy w (w.heap p).Name p) (w.heap q).Name q) _ = _
      simp [getByName, setProxy, GoMap.get_set_of_ne _ _ _ _ hne, GoMap.get_set_self]
    · show getByName (setProxy (setProxy w (w.heap p).Name p) (w.heap q).Name q) _ = _
      simp [getByName, setProxy, GoMap.get_set_self]

theorem Add_unregistered_name_witness :
    exWorld.collection.proxies.get (exWorld.heap 2).Name = none ∧
    (Add exWorld 2 false).2 = none ∧
    Get (Add exWorld 2 false).1 (exWorld.heap 2).Name = Except.ok 2 :=
  ⟨by decide, (Add_unregistered_name.1 exWorld 2 (by decide)).1,
    (Add_unregistered_name.1 exWorld 2 (by decide)).2.1⟩

/-! ## `AddOrReplace` -/

/-- C3: when the collection holds `e` under the name of `p` and `p` has the
listen and upstream addresses of `e`, `AddOrReplace(p, start)` returns nil for
either value of `start` and the state is the one before the call: no `Stop` and
no `Start` is recorded, the name still maps to `e` and every other entry is
unchanged. -/
theorem AddOrReplace_same_addresses (w : World) (p e : Ptr) (n : String) (start : Bool)
    (he : w.collection.proxies.get n = some e) (hp : (w.heap p).Name = n)
    (hl : (w.heap p).Listen = (w.heap e).Listen)
    (hu : (w.heap p).Upstream = (w.heap e).Upstream) :
    (AddOrReplace w p start).2 = none ∧
    (AddOrReplace w p start).1 = w ∧
    (AddOrReplace w p start).1.log = w.log ∧
    (AddOrReplace w p start).1.collection.proxies.get n = some e ∧
    ∀ k : String, (AddOrReplace w p start).1.collection.proxies.get k
      = w.collection.proxies.get k := by
  have h : AddOrReplace w p start = (w, none) := by
    unfold AddOrReplace
    simp only [hp, he]
    rw [if_pos ⟨hl.symm, hu.symm⟩]
  rw [h]
  exact ⟨rfl, rfl, rfl, he, fun _ => rfl⟩

theorem AddOrReplace_same_addresses_witness :
    exWorld.collection.proxies.get "a" = some 0 ∧ (exWorld.heap 0).Name = "a" ∧
    (AddOrReplace exWorld 0 true).2 = none ∧
    (AddOrReplace exWorld 0 true).1.log = exWorld.log :=
  ⟨by decide, by decide,
    (AddOrReplace_same_addresses exWorld 0 0 "a" true (by decide) (by decide) rfl rfl).1,
    (AddOrReplace_same_addresses exWorld 0 0 "a" true (by decide) (by decide) rfl rfl).2.2.1⟩

/-- `AddOrReplace` on a registered name whose addresses differ: the old proxy
is stopped and the rest of `AddOrReplace` runs on the state after `Stop`. -/
theorem AddOrReplace_changed_eq (w : World) (p e : Ptr) (n : String) (start : Bool)
    (he : w.collection.proxies.get n = some e) (hp : (w.heap p).Name = n)
    (hd : (w.heap p).Listen ≠ (w.heap e).Listen ∨ (w.heap p).Upstream ≠ (w.heap e).Upstream) :
    AddOrReplace w p start =
      if start then
        match Proxy.Start (Proxy.Stop w e) p with
        | (w1, some err) => (w1, some err)
        | (w1, none) => (setProxy w1 (w1.heap p).Name p, none)
      else
        (setProxy (Proxy.Stop w e) ((Proxy.Stop w e).heap p).Name p, none) := by
  have hne : ¬ ((w.heap e).Listen = (w.heap p).Listen
      ∧ (w.heap e).Upstream = (w.heap p).Upstream) := by
    rintro ⟨h1, h2⟩
    rcases hd with h | h
    · exact h h1.symm
    · exact h h2.symm
  unfold AddOrReplace
  simp only [hp, he]
  rw [if_neg hne]

/-- C4, the claim fails: in `exBusy` the name `a` maps to the proxy at address 0,
the proxy at address 1 is named `a` and has another listen address, and
`AddOrReplace` of it with `start = true` returns the error of `Start` and leaves
`a` mapped to the old proxy. -/
theorem AddOrReplace_changed_addresses_counterexample :
    exBusy.collection.proxies.get "a" = some 0 ∧ (exBusy.heap 1).Name = "a" ∧
    (exBusy.heap 1).Listen ≠ (exBusy.heap 0).Listen ∧
    (AddOrReplace exBusy 1 true).2 = some Err.AddressInUse ∧
    (AddOrReplace exBusy 1 true).1.collection.proxies.get "a" = some 0 ∧
    (AddOrReplace exBusy 1 true).1.collection.proxies.get "a" ≠ some 1 := by
  decide

/-- C4, amended: when the collection holds `e` under the name `n` of `p` and the
listen or upstream address of `p` differs from that of `e`,
`AddOrReplace(p, start)` stops `e` (the call is recorded right after the earlier
calls, and `e` is not enabled afterwards); and when `start` is false or
`p.Start` succeeds it returns nil and the collection maps `n` to `p`. -/
theorem AddOrReplace_changed_addresses (w : World) (p e : Ptr) (n : String) (start : Bool)
    (he : w.collection.proxies.get n = some e) (hp : (w.heap p).Name = n)
    (hd : (w.heap p).Listen ≠ (w.heap e).Listen ∨ (w.heap p).Upstream ≠ (w.heap e).Upstream) :
    (AddOrReplace w p start).1.log
      = w.log ++ [Event.stop e] ++ (if start then [Event.start p] else []) ∧
    ((AddOrReplace w p start).1.heap e).Enabled = false ∧
    ((start = false ∨ (Proxy.Start (Proxy.Stop w e) p).2 = none) →
      (AddOrReplace w p start).2 = none ∧
      (AddOrReplace w p start).1.collection.proxies.get n = some p) := by
  have hpe : e ≠ p := by
    rintro rfl
    rcases hd with h | h <;> exact h rfl
  rw [AddOrReplace_changed_eq w p e n start he hp hd]
  have hname : ((Proxy.Start (Proxy.Stop w e) p).1.heap p).Name = n := by
    rw [Start_Name, Stop_Name, hp]
  have hstop : ((Proxy.Stop w e).heap e).Enabled = false := by
    rw [Stop_heap_self]
  cases start with
  | false =>
    simp only [Bool.false_eq_true, if_false]
    refine ⟨?_, ?_, ?_⟩
    · simp [setProxy, Stop_log]
    · simpa [setProxy] using hstop
    · intro _
      simp [setProxy, Stop_Name, hp, GoMap.get_set_self]
  | true =>
    simp only [if_true]
    have hlog := Start_log (Proxy.Stop w e) p
    have hheap := Start_heap_of_ne (Proxy.Stop w e) p e hpe
    rcases hs : Proxy.Start (Proxy.Stop w e) p with ⟨w1, _ | err⟩
    · rw [hs] at hlog hheap hname
      simp only at hlog hheap hname
      refine ⟨?_, ?_, ?_⟩
      · simp [setProxy, hlog, Stop_log]
      · simp [setProxy, hheap, hstop]
      · intro _
        constructor
        · rfl
        · simp [setProxy, hname, GoMap.get_set_self]
    · rw [hs] at hlog hheap
      simp only at hlog hheap
      refine ⟨?_, ?_, ?_⟩
      · simp [hlog, Stop_log]
      · simp [hheap, hstop]
      · intro h
        rcases h with h | h
        · exact absurd h (by decide)
        · simp at h

theorem AddOrReplace_changed_addresses_witness :
    exWorld.collection.proxies.get "a" = some 0 ∧ (exWorld.heap 1).Name = "a" ∧
    (Proxy.Start (Proxy.Stop exWorld 0) 1).2 = none ∧
    (AddOrReplace exWorld 1 true).2 = none ∧
    (AddOrReplace exWorld 1 true).1.collection.proxies.get "a" = some 1 :=
  ⟨by decide, by decide, by decide,
    (AddOrReplace_changed_addresses exWorld 1 0 "a" true (by decide) (by decide)
      (Or.inl (by decide))).2.2 (Or.inr (by decide))⟩

/-! ## `Remove` and `Clear` -/

/-- C5: when `n` is not registered, `Remove(n)` returns `ErrProxyNotFound` and the
state is the one before the call: no `Stop` is recorded and the contents are
unchanged. -/
theorem Remove_unregistered_name (w : World) (n : String)
    (h : w.collection.proxies.get n = none) :
    (Remove w n).2 = some Err.ErrProxyNotFound ∧
    (Remove w n).1 = w ∧
    (Remove w n).1.log = w.log ∧
    (Remove w n).1.collection = w.collection := by
  have h1 : Remove w n = (w, some Err.ErrProxyNotFound) := by
    simp [Remove, getByName, h]
  rw [h1]
  exact ⟨rfl, rfl, rfl, rfl⟩

theorem Remove_unregistered_name_witness :
    exWorld.collection.proxies.get "b" = none ∧
    (Remove exWorld "b").2 = some Err.ErrProxyNotFound ∧
    (Remove exWorld "b").1 = exWorld :=
  ⟨by decide, (Remove_unregistered_name exWorld "b" (by decide)).1,
    (Remove_unregistered_name exWorld "b" (by decide)).2.1⟩

/-- A successful `Add` of an unregistered name writes `proxies[p.Name] = p` and
changes no `Name`. -/
theorem Add_ok (w : World) (p : Ptr) (start : Bool)
    (h : w.collection.proxies.get (w.heap p).Name = none)
    (hok : (Add w p start).2 = none) :
    (Add w p start).1.collection.proxies = w.collection.proxies.set (w.heap p).Name p ∧
    ∀ q : Ptr, ((Add w p start).1.heap q).Name = (w.heap q).Name := by
  cases start with
  | false =>
    rw [Add_false_eq w p h]
    exact ⟨rfl, fun _ => rfl⟩
  | true =>
    have hn := Start_Name w p
    have hc := Start_collection w p
    have e1 : Add w p true =
        match Proxy.Start w p with
        | (w1, some err) => (w1, some err)
        | (w1, none) => (setProxy w1 (w1.heap p).Name p, none) := by
      unfold Add
      rw [h]
      rfl
    rw [e1] at hok ⊢
    rcases hs : Proxy.Start w p with ⟨w1, _ | err⟩
    · rw [hs] at hn hc
      simp only at hn hc
      refine ⟨?_, fun q => ?_⟩
      · simp [setProxy, hn, hc]
      · simpa [setProxy] using hn q
    · rw [hs] at hok
      simp at hok

/-- `Remove` of a registered name: the proxy is stopped and the key
`proxy.Name` is deleted. -/
theorem Remove_registered_eq (w : World) (e : Ptr) (n : String)
    (he : w.collection.proxies.get n = some e) :
    Remove w n = (deleteProxy (Proxy.Stop w e) (w.heap e).Name, none) := by
  simp [Remove, getByName, he, Stop_Name]

theorem KeysAreNames_get (w : World) (h : KeysAreNames w) (k : String) (p : Ptr)
    (hk : w.collection.proxies.get k = some p) : (w.heap p).Name = k :=
  h (k, p) (GoMap.mem_of_get _ _ _ hk) hk

theorem clearLoop_get_sub (l : List (String × Ptr)) :
    ∀ (w : World) (k : String) (p : Ptr),
      (clearLoop l w).collection.proxies.get k = some p → w.collection.proxies.get k = some p := by
  induction l with
  | nil => intro w k p h; exact h
  | cons e rest ih =>
    obtain ⟨k0, p0⟩ := e
    intro w k p h
    unfold clearLoop at h
    split at h
    · have h1 := ih _ k p h
      simp only [deleteProxy, Stop_collection] at h1
      exact GoMap.get_delete_sub _ _ _ _ h1
    · exact ih _ k p h

theorem clearLoop_log (l : List (String × Ptr)) :
    ∀ (w : World) (ev : Event), ev ∈ w.log → ev ∈ (clearLoop l w).log := by
  induction l with
  | nil => intro w ev h; exact h
  | cons e rest ih =>
    obtain ⟨k0, p0⟩ := e
    intro w ev h
    unfold clearLoop
    split
    · apply ih
      simp [deleteProxy, Stop_log, h]
    · exact ih _ ev h

theorem clearLoop_Enabled (l : List (String × Ptr)) :
    ∀ (w : World) (q : Ptr), (w.heap q).Enabled = false →
      ((clearLoop l w).heap q).Enabled = false := by
  induction l with
  | nil => intro w q h; exact h
  | cons e rest ih =>
    obtain ⟨k0, p0⟩ := e
    intro w q h
    unfold clearLoop
    split
    · apply ih
      show ((Proxy.Stop w p0).heap q).Enabled = false
      by_cases hq : q = p0
      · subst hq
        rw [Stop_heap_self]
      · rw [Stop_heap_of_ne w p0 q hq, h]
    · exact ih _ q h

/-- One visit of the loop of `Clear` keeps the registry invariant. -/
theorem KeysAreNames_visit (w : World) (p0 : Ptr) (j : String) (h : KeysAreNames w) :
    KeysAreNames (deleteProxy (Proxy.Stop w p0) j) := by
  intro e _ hget
  have h1 : w.collection.proxies.get e.1 = some e.2 := by
    simp only [deleteProxy, Stop_collection] at hget
    exact GoMap.get_delete_sub _ _ _ _ hget
  show ((Proxy.Stop w p0).heap e.2).Name = e.1
  rw [Stop_Name]
  exact KeysAreNames_get w h _ _ h1

theorem clearLoop_visits (l : List (String × Ptr)) :
    ∀ (w : World), KeysAreNames w → ∀ (k : String) (p : Ptr), (k, p) ∈ l →
      (clearLoop l w).collection.proxies.get k ≠ some p := by
  induction l with
  | nil => intro w _ k p h; simp at h
  | cons e rest ih =>
    obtain ⟨k0, p0⟩ := e
    intro w hw k p hmem
    unfold clearLoop
    split
    · next hv =>
      have hn : ((Proxy.Stop w p0).heap p0).Name = k0 := by
        rw [Stop_Name]
        exact KeysAreNames_get w hw _ _ hv
      rcases List.mem_cons.mp hmem with heq | hin
      · obtain ⟨rfl, rfl⟩ := Prod.mk.inj heq
        intro hc
        have h1 := clearLoop_get_sub rest _ _ _ hc
        rw [hn] at h1
        simp [deleteProxy, GoMap.get_delete_self] at h1
      · exact ih _ (KeysAreNames_visit w p0 _ hw) k p hin
    · next hv =>
      rcases List.mem_cons.mp hmem with heq | hin
      · obtain ⟨rfl, rfl⟩ := Prod.mk.inj heq
        intro hc
        exact hv (clearLoop_get_sub rest _ _ _ hc)
      · exact ih w hw k p hin

theorem clearLoop_stops (l : List (String × Ptr)) :
    ∀ (w : World), KeysAreNames w → ∀ (k : String) (p : Ptr), (k, p) ∈ l →
      w.collection.proxies.get k = some p →
      Event.stop p ∈ (clearLoop l w).log ∧ ((clearLoop l w).heap p).Enabled = false := by
  induction l with
  | nil => intro w _ k p h; simp at h
  | cons e rest ih =>
    obtain ⟨k0, p0⟩ := e
    intro w hw k p hmem hget
    unfold clearLoop
    split
    · next hv =>
      have hn : ((Proxy.Stop w p0).heap p0).Name = k0 := by
        rw [Stop_Name]
        exact KeysAreNames_get w hw _ _ hv
      by_cases hp : p = p0
      · subst hp
        constructor
        · apply clearLoop_log
          simp [deleteProxy, Stop_log]
        · apply clearLoop_Enabled
          show ((Proxy.Stop w p).heap p).Enabled = false
          rw [Stop_heap_self]
      · have hk : k ≠ k0 := by
          rintro rfl
          rw [hv] at hget
          exact hp (Option.some.inj hget).symm
        have hin : (k, p) ∈ rest := by
          rcases List.mem_cons.mp hmem with heq | hin
          · exact absurd (Prod.mk.inj heq).2 hp
          · exact hin
        apply ih _ (KeysAreNames_visit w p0 _ hw) k p hin
        rw [hn]
        simp [deleteProxy, Stop_collection, GoMap.get_delete_of_ne _ _ _ hk, hget]
    · next hv =>
      have hin : (k, p) ∈ rest := by
        rcases List.mem_cons.mp hmem with heq | hin
        · obtain ⟨rfl, rfl⟩ := Prod.mk.inj heq
          exact absurd hget hv
        · exact hin
      exact ih w hw k p hin hget

/-! ## `PopulateJson` -/

theorem length_lt_one_of_empty (s : String) (h : s = "") : s.length < 1 := by
  subst h
  decide

theorem validate_missing (l : List Input) :
    ∀ i : Nat, (∃ p ∈ l, p.Name = "" ∨ p.Upstream = "") →
      ∃ err, validate i l = Except.error err ∧ err.wraps Err.ErrMissingField = true := by
  induction l with
  | nil => intro i h; simp at h
  | cons p rest ih =>
    intro i h
    unfold validate
    by_cases h1 : p.Name.length < 1
    · rw [if_pos h1]
      exact ⟨_, rfl, by simp [Err.wraps]⟩
    · rw [if_neg h1]
      by_cases h2 : p.Upstream.length < 1
      · rw [if_pos h2]
        exact ⟨_, rfl, by simp [Err.wraps]⟩
      · rw [if_neg h2]
        have hrest : ∃ q ∈ rest, q.Name = "" ∨ q.Upstream = "" := by
          obtain ⟨q, hq, hbad⟩ := h
          rcases List.mem_cons.mp hq with rfl | hq
          · rcases hbad with hb | hb
            · exact absurd (length_lt_one_of_empty _ hb) h1
            · exact absurd (length_lt_one_of_empty _ hb) h2
          · exact ⟨q, hq, hbad⟩
        obtain ⟨err, he, hw⟩ := ih (i + 1) hrest
        exact ⟨err, by rw [he], hw⟩

/-- C8: when some entry of the decoded batch has an empty name or an empty
upstream, `PopulateJson` returns a nil list of proxies and an error wrapping
`ErrMissingField`, and the state is the one before the call: no proxy object is
allocated, no `Start` or `Stop` is recorded and the contents of the collection
are unchanged, wherever in the batch the invalid entry stands. -/
theorem PopulateJson_missing_field (w : World) (input : List Input)
    (h : ∃ p ∈ input, p.Name = "" ∨ p.Upstream = "") :
    ∃ err, PopulateJson w (some input) = (w, none, some err) ∧
      err.wraps Err.ErrMissingField = true ∧
      (PopulateJson w (some input)).1.next = w.next ∧
      (PopulateJson w (some input)).1.log = w.log ∧
      (PopulateJson w (some input)).1.collection = w.collection := by
  obtain ⟨err, he, hw⟩ := validate_missing input 0 h
  have h1 : PopulateJson w (some input) = (w, none, some err) := by
    simp [PopulateJson, he]
  exact ⟨err, h1, hw, by rw [h1], by rw [h1], by rw [h1]⟩

theorem PopulateJson_missing_field_witness :
    (∃ p ∈ exBadBatch, p.Name = "" ∨ p.Upstream = "") ∧
    ∃ err, PopulateJson exWorld (some exBadBatch) = (exWorld, none, some err) ∧
      err.wraps Err.ErrMissingField = true :=
  ⟨⟨_, List.mem_cons_of_mem _ (List.mem_singleton.mpr rfl), Or.inr rfl⟩,
    (PopulateJson_missing_field exWorld exBadBatch
      ⟨_, List.mem_cons_of_mem _ (List.mem_singleton.mpr rfl), Or.inr rfl⟩).imp
      (fun _ hx => ⟨hx.1, hx.2.1⟩)⟩

theorem createProxy_snd (w : World) (p : Input) : (createProxy w p).2 = w.next := rfl

theorem createProxy_next (w : World) (p : Input) : (createProxy w p).1.next = w.next + 1 := rfl

theorem createProxy_collection (w : World) (p : Input) :
    (createProxy w p).1.collection = w.collection := rfl

theorem createProxy_heap_self (w : World) (p : Input) :
    (createProxy w p).1.heap w.next = ⟨p.Name, p.Listen, p.Upstream, false⟩ := by
  simp [createProxy, NewProxy, World.store]

theorem createProxy_heap_of_ne (w : World) (p : Input) (q : Ptr) (h : q ≠ w.next) :
    (createProxy w p).1.heap q = w.heap q := by
  simp [createProxy, NewProxy, World.store, h]

/-- The part of `Add` and `AddOrReplace` after the lookup. -/
theorem startAndSet_facts (w : World) (p : Ptr) (start : Bool) (r : World × Option Err)
    (hr : r = if start then
        match Proxy.Start w p with
        | (w1, some err) => (w1, some err)
        | (w1, none) => (setProxy w1 (w1.heap p).Name p, none)
      else (setProxy w (w.heap p).Name p, none)) :
    r.1.next = w.next ∧ r.1.maps = w.maps ∧
    (∀ q, sameFields (r.1.heap q) (w.heap q)) ∧
    (r.2 = none → r.1.collection.proxies = w.collection.proxies.set (w.heap p).Name p) ∧
    (∀ err, r.2 = some err → r.1.collection = w.collection) := by
  subst hr
  cases start with
  | false =>
    simp only [Bool.false_eq_true, if_false]
    exact ⟨rfl, rfl, fun q => sameFields_refl _, fun _ => rfl, fun err h => by simp at h⟩
  | true =>
    simp only [if_true]
    have h1 := Start_next w p
    have h2 := Start_maps w p
    have h3 := Start_sameFields w p
    have h4 := Start_collection w p
    rcases hs : Proxy.Start w p with ⟨w1, _ | err⟩
    · rw [hs] at h1 h2 h3 h4
      simp only at h1 h2 h3 h4
      refine ⟨h1, h2, h3, fun _ => ?_, fun err h => by simp at h⟩
      simp [setProxy, h4, (h3 p).1]
    · rw [hs] at h1 h2 h3 h4
      simp only at h1 h2 h3 h4
      exact ⟨h1, h2, h3, fun h => by simp at h, fun _ _ => h4⟩

theorem AddOrReplace_fresh (w : World) (p : Ptr) (start : Bool)
    (h : w.collection.proxies.get (w.heap p).Name = none) :
    (AddOrReplace w p start).1.next = w.next ∧
    (∀ q, sameFields ((AddOrReplace w p start).1.heap q) (w.heap q)) ∧
    ((AddOrReplace w p start).2 = none →
      (AddOrReplace w p start).1.collection.proxies
        = w.collection.proxies.set (w.heap p).Name p) ∧
    (∀ err, (AddOrReplace w p start).2 = some err →
      (AddOrReplace w p start).1.collection = w.collection) := by
  have e1 : AddOrReplace w p start = if start then
        match Proxy.Start w p with
        | (w1, some err) => (w1, some err)
        | (w1, none) => (setProxy w1 (w1.heap p).Name p, none)
      else (setProxy w (w.heap p).Name p, none) := by
    unfold AddOrReplace
    simp only [h]
  obtain ⟨h1, _, h3, h4, h5⟩ := startAndSet_facts w p start _ e1
  exact ⟨h1, h3, h4, h5⟩

theorem populateLoop_cons (p : Input) (rest : List Input) (w : World) (acc : List Ptr) :
    populateLoop (p :: rest) w acc =
      match AddOrReplace (createProxy w p).1 (createProxy w p).2 (p.Enabled.getD false) with
      | (w5, some err) => (w5, acc, some err)
      | (w5, none) => populateLoop rest w5 (acc ++ [(createProxy w p).2]) := rfl

theorem populateLoop_append (l1 l2 : List Input) :
    ∀ (w : World) (acc : List Ptr) (wk : World) (ps : List Ptr),
      populateLoop l1 w acc = (wk, ps, none) →
      populateLoop (l1 ++ l2) w acc = populateLoop l2 wk ps := by
  induction l1 with
  | nil =>
    intro w acc wk ps h
    simp only [populateLoop, Prod.mk.injEq] at h
    obtain ⟨rfl, rfl, _⟩ := h
    rfl
  | cons p rest ih =>
    intro w acc wk ps h
    rw [List.cons_append, populateLoop_cons]
    rw [populateLoop_cons] at h
    rcases hs : AddOrReplace (createProxy w p).1 (createProxy w p).2 (p.Enabled.getD false)
      with ⟨w5, _ | err⟩
    · rw [hs] at h
      exact ih _ _ _ _ h
    · rw [hs] at h
      simp at h

theorem range_shift (a n : Nat) :
    a :: (List.range n).map (fun i => a + 1 + i) = (List.range (n + 1)).map (fun i => a + i) := by
  rw [List.range_succ_eq_map]
  simp only [List.map_cons, List.map_map, Nat.add_zero, List.cons.injEq, true_and]
  apply List.map_congr_left
  intro i _
  simp only [Function.comp]
  omega

theorem populateLoop_ok (l : List Input) :
    ∀ (w : World) (acc : List Ptr) (wk : World) (ps : List Ptr),
      populateLoop l w acc = (wk, ps, none) →
      (l.map (fun p => p.Name)).Nodup →
      (∀ p ∈ l, w.collection.proxies.get p.Name = none) →
      ps = acc ++ (List.range l.length).map (fun i => w.next + i) ∧
      wk.next = w.next + l.length ∧
      (∀ (i : Nat) (p : Input), l[i]? = some p →
        wk.collection.proxies.get p.Name = some (w.next + i) ∧
        sameFields (wk.heap (w.next + i)) ⟨p.Name, p.Listen, p.Upstream, false⟩) ∧
      (∀ k : String, k ∉ l.map (fun p => p.Name) →
        wk.collection.proxies.get k = w.collection.proxies.get k) ∧
      (∀ q : Nat, q < w.next → sameFields (wk.heap q) (w.heap q)) := by
  induction l with
  | nil =>
    intro w acc wk ps h _ _
    simp only [populateLoop, Prod.mk.injEq] at h
    obtain ⟨rfl, rfl, _⟩ := h
    refine ⟨by simp, rfl, ?_, fun _ _ => rfl, fun _ _ => sameFields_refl _⟩
    intro i p hi
    simp at hi
  | cons p rest ih =>
    intro w acc wk ps h hnd hun
    rw [populateLoop_cons] at h
    have hname : ((createProxy w p).1.heap (createProxy w p).2).Name = p.Name := by
      rw [createProxy_snd, createProxy_heap_self]
    have hfresh : (createProxy w p).1.collection.proxies.get
        ((createProxy w p).1.heap (createProxy w p).2).Name = none := by
      rw [hname, createProxy_collection]
      exact hun p (List.mem_cons_self _ _)
    obtain ⟨hnext, hfields, hset, _⟩ :=
      AddOrReplace_fresh (createProxy w p).1 (createProxy w p).2 (p.Enabled.getD false) hfresh
    rw [createProxy_next] at hnext
    rcases hs : AddOrReplace (createProxy w p).1 (createProxy w p).2 (p.Enabled.getD false)
      with ⟨w5, _ | err⟩
    · rw [hs] at h hnext hfields hset
      simp only at h hnext hfields
      have hset := hset rfl
      rw [hname, createProxy_collection, createProxy_snd] at hset
      simp only at hset
      rw [List.map_cons, List.nodup_cons] at hnd
      have hun5 : ∀ q ∈ rest, w5.collection.proxies.get q.Name = none := by
        intro q hq
        have hne : q.Name ≠ p.Name := by
          intro heq
          exact hnd.1 (heq ▸ List.mem_map_of_mem (fun p => p.Name) hq)
        rw [hset, GoMap.get_set_of_ne _ _ _ _ hne]
        exact hun q (List.mem_cons_of_mem _ hq)
      obtain ⟨hps, hnk, hreg, hframe, hold⟩ := ih w5 _ wk ps h hnd.2 hun5
      rw [hnext] at hps hnk hreg
      refine ⟨?_, ?_, ?_, ?_, ?_⟩
      · rw [hps, createProxy_snd, List.append_assoc, List.length_cons]
        congr 1
        exact range_shift w.next rest.length
      · rw [hnk, List.length_cons]
        omega
      · intro i q hi
        cases i with
        | zero =>
          simp only [List.getElem?_cons_zero, Option.some.injEq] at hi
          subst hi
          constructor
          · rw [hframe _ hnd.1, hset, GoMap.get_set_self, Nat.add_zero]
          · rw [Nat.add_zero]
            have h1 := hold w.next (by omega)
            have h2 := hfields w.next
            rw [createProxy_heap_self] at h2
            exact sameFields_trans h1 h2
        | succ i =>
          simp only [List.getElem?_cons_succ] at hi
          have := hreg i q hi
          rw [show w.next + (i + 1) = w.next + 1 + i by omega]
          exact this
      · intro k hk
        rw [List.map_cons, List.mem_cons, not_or] at hk
        rw [hframe k hk.2, hset, GoMap.get_set_of_ne _ _ _ _ hk.1]
      · intro q hq
        have h1 := hold q (by omega)
        have h2 := hfields q
        rw [createProxy_heap_of_ne w p q (Nat.ne_of_lt hq)] at h2
        exact sameFields_trans h1 h2
    · rw [hs] at h
      simp at h

theorem validate_ok (l : List Input) :
    ∀ (i : Nat) (l1 : List Input), validate i l = Except.ok l1 → l1 = l.map defaultEnabled := by
  induction l with
  | nil =>
    intro i l1 h
    simp only [validate, Except.ok.injEq] at h
    simp [← h]
  | cons p rest ih =>
    intro i l1 h
    unfold validate at h
    split at h
    · simp at h
    · split at h
      · simp at h
      · split at h
        · simp at h
        · next r hr =>
          simp only [Except.ok.injEq] at h
          rw [← h, ih _ _ hr, List.map_cons]

/-- C9: for a batch that passes validation, whose names are pairwise distinct
and not registered, when the loop has added the entries before position `k` and
`AddOrReplace` fails for the entry at `k`, `PopulateJson` returns that error
together with exactly the proxies created for the entries before `k`, in input
order (the `i`-th of them is the `i`-th object allocated and carries the fields
of entry `i`); these are registered under their names afterwards, and no entry
from position `k` on is registered. -/
theorem PopulateJson_partial (w : World) (input input1 : List Input) (k : Nat) (pk : Input)
    (wk w1 : World) (ps : List Ptr) (err : Err)
    (hval : validate 0 input = Except.ok input1)
    (hd : (input.map (fun p => p.Name)).Nodup)
    (hu : ∀ p ∈ input, w.collection.proxies.get p.Name = none)
    (hk : input1[k]? = some pk)
    (hpre : populateLoop (input1.take k) w [] = (wk, ps, none))
    (hfail : AddOrReplace (createProxy wk pk).1 (createProxy wk pk).2 (pk.Enabled.getD false)
      = (w1, some err)) :
    PopulateJson w (some input) = (w1, some ps, some err) ∧
    ps = (List.range k).map (fun i => w.next + i) ∧
    (∀ (i : Nat) (p : Input), i < k → input[i]? = some p →
      w1.collection.proxies.get p.Name = some (w.next + i) ∧
      (w1.heap (w.next + i)).Name = p.Name ∧
      (w1.heap (w.next + i)).Listen = p.Listen ∧
      (w1.heap (w.next + i)).Upstream = p.Upstream) ∧
    (∀ (j : Nat) (p : Input), k ≤ j → input[j]? = some p →
      w1.collection.proxies.get p.Name = none) := by
  have hmap := validate_ok input 0 input1 hval
  have hnames : input1.map (fun p => p.Name) = input.map (fun p => p.Name) := by
    rw [hmap, List.map_map]
    rfl
  obtain ⟨hlt, hget⟩ := List.getElem?_eq_some_iff.mp hk
  have hdrop : input1.drop k = pk :: input1.drop (k + 1) := by
    rw [List.drop_eq_getElem_cons hlt, hget]
  have hsplit : input1.take k ++ pk :: input1.drop (k + 1) = input1 := by
    rw [← hdrop, List.take_append_drop]
  have hnd2 : ((input1.take k).map (fun p => p.Name)
      ++ (input1.drop k).map (fun p => p.Name)).Nodup := by
    rw [← List.map_append, List.take_append_drop, hnames]
    exact hd
  obtain ⟨hndt, _, hdisj⟩ := List.nodup_append.mp hnd2
  have hu1 : ∀ p ∈ input1, w.collection.proxies.get p.Name = none := by
    intro p hp
    rw [hmap] at hp
    obtain ⟨q, hq, rfl⟩ := List.mem_map.mp hp
    exact hu q hq
  obtain ⟨hps, hnk, hreg, hframe, _⟩ :=
    populateLoop_ok _ w [] wk ps hpre hndt (fun p hp => hu1 p (List.mem_of_mem_take hp))
  have hlen : (input1.take k).length = k := List.length_take_of_le (Nat.le_of_lt hlt)
  rw [hlen] at hps hnk
  rw [List.nil_append] at hps
  have hlater : ∀ (j : Nat) (q : Input), k ≤ j → input1[j]? = some q →
      wk.collection.proxies.get q.Name = none := by
    intro j q hj hq
    have hin : q ∈ input1.drop k := by
      apply List.getElem?_mem (n := j - k)
      rw [List.getElem?_drop, ← hq]
      congr 1
      omega
    have hnot : q.Name ∉ (input1.take k).map (fun p => p.Name) :=
      fun hx => hdisj hx (List.mem_map_of_mem (fun p => p.Name) hin)
    rw [hframe _ hnot]
    exact hu1 q (List.getElem?_mem hq)
  have hfresh : (createProxy wk pk).1.collection.proxies.get
      ((createProxy wk pk).1.heap (createProxy wk pk).2).Name = none := by
    rw [createProxy_snd, createProxy_heap_self, createProxy_collection]
    exact hlater k pk (Nat.le_refl k) hk
  obtain ⟨_, hfields, _, herr⟩ := AddOrReplace_fresh _ _ (pk.Enabled.getD false) hfresh
  rw [hfail] at hfields herr
  have hcoll : w1.collection = wk.collection := herr err rfl
  refine ⟨?_, hps, ?_, ?_⟩
  · unfold PopulateJson
    simp only [hval]
    rw [← hsplit, populateLoop_append _ _ _ _ _ _ hpre, populateLoop_cons, hfail]
  · intro i p hi hp
    have hp1 : (input1.take k)[i]? = some (defaultEnabled p) := by
      rw [List.getElem?_take_of_lt hi, hmap, List.getElem?_map, hp]
      rfl
    obtain ⟨h1, h2⟩ := hreg i _ hp1
    have h3 := hfields (w.next + i)
    rw [createProxy_heap_of_ne wk pk (w.next + i) (by rw [hnk]; exact Nat.ne_of_lt (by omega))]
      at h3
    have h4 := sameFields_trans h3 h2
    rw [hcoll]
    exact ⟨h1, h4.1, h4.2.1, h4.2.2⟩
  · intro j p hj hp
    have hp1 : input1[j]? = some (defaultEnabled p) := by
      rw [hmap, List.getElem?_map, hp]
      rfl
    rw [hcoll]
    exact hlater j (defaultEnabled p) hj hp1

theorem PopulateJson_partial_witness :
    (PopulateJson exWorld (some exClashBatch)).2 = (some [3], some Err.AddressInUse) ∧
    (PopulateJson exWorld (some exClashBatch)).1.collection.proxies.get "c" = some 3 ∧
    (PopulateJson exWorld (some exClashBatch)).1.collection.proxies.get "d" = none :=
  have h := PopulateJson_partial exWorld exClashBatch (exClashBatch.map defaultEnabled) 1
    { Name := "d", Listen := "l3", Upstream := "u4", Enabled := some true }
    (populateLoop ((exClashBatch.map defaultEnabled).take 1) exWorld []).1
    (populateLoop (exClashBatch.map defaultEnabled) exWorld []).1
    [3] Err.AddressInUse rfl (by decide) (by decide) rfl rfl rfl
  ⟨by rw [h.1], by rw [h.1]; exact (h.2.2.1 0 _ (by decide) rfl).1,
    by rw [h.1]; exact h.2.2.2 1 _ (by decide) rfl⟩

/-! ## `Proxies` -/

theorem copy_get (src : GoMap) (l : List (String × Ptr)) :
    ∀ m : GoMap,
      (∀ k, m.get k = src.get k ∨ (m.get k = none ∧ ∃ v, src.get k = some v ∧ (k, v) ∈ l)) →
      ∀ k, (l.foldl (fun m e => if src.get e.1 = some e.2 then m.set e.1 e.2 else m) m).get k
        = src.get k := by
  induction l with
  | nil =>
    intro m h k
    rcases h k with h1 | ⟨_, v, _, hv⟩
    · exact h1
    · simp at hv
  | cons e rest ih =>
    intro m h k
    rw [List.foldl_cons]
    apply ih
    intro j
    by_cases hc : src.get e.1 = some e.2
    · rw [if_pos hc]
      by_cases hj : j = e.1
      · subst hj
        left
        rw [GoMap.get_set_self, hc]
      · rw [GoMap.get_set_of_ne _ _ _ _ hj]
        rcases h j with h1 | ⟨h1, v, hv, hmem⟩
        · exact Or.inl h1
        · right
          refine ⟨h1, v, hv, ?_⟩
          rcases List.mem_cons.mp hmem with heq | hin
          · exact absurd (congrArg Prod.fst heq) hj
          · exact hin
    · rw [if_neg hc]
      rcases h j with h1 | ⟨h1, v, hv, hmem⟩
      · exact Or.inl h1
      · right
        refine ⟨h1, v, hv, ?_⟩
        rcases List.mem_cons.mp hmem with heq | hin
        · rw [← heq] at hc
          exact absurd hv hc
        · exact hin

theorem clearLoop_maps (l : List (String × Ptr)) :
    ∀ w : World, (clearLoop l w).maps = w.maps := by
  induction l with
  | nil => intro w; rfl
  | cons e rest ih =>
    obtain ⟨k0, p0⟩ := e
    intro w
    unfold clearLoop
    split
    · rw [ih]
      exact Stop_maps w p0
    · exact ih w

theorem Add_maps (w : World) (p : Ptr) (start : Bool) : (Add w p start).1.maps = w.maps := by
  unfold Add
  split
  · rfl
  · exact (startAndSet_facts w p start _ rfl).2.1

theorem AddOrReplace_maps (w : World) (p : Ptr) (start : Bool) :
    (AddOrReplace w p start).1.maps = w.maps := by
  cases h : w.collection.proxies.get (w.heap p).Name with
  | none =>
    have e1 : AddOrReplace w p start = if start then
          match Proxy.Start w p with
          | (w1, some err) => (w1, some err)
          | (w1, none) => (setProxy w1 (w1.heap p).Name p, none)
        else (setProxy w (w.heap p).Name p, none) := by
      unfold AddOrReplace
      simp only [h]
    exact (startAndSet_facts w p start _ e1).2.1
  | some e =>
    by_cases hsame : (w.heap e).Listen = (w.heap p).Listen
        ∧ (w.heap e).Upstream = (w.heap p).Upstream
    · have e1 : AddOrReplace w p start = (w, none) := by
        unfold AddOrReplace
        simp only [h]
        rw [if_pos hsame]
      rw [e1]
    · have e1 : AddOrReplace w p start = if start then
            match Proxy.Start (Proxy.Stop w e) p with
            | (w1, some err) => (w1, some err)
            | (w1, none) => (setProxy w1 (w1.heap p).Name p, none)
          else (setProxy (Proxy.Stop w e) ((Proxy.Stop w e).heap p).Name p, none) := by
        unfold AddOrReplace
        simp only [h]
        rw [if_neg hsame]
      rw [(startAndSet_facts (Proxy.Stop w e) p start _ e1).2.1, Stop_maps]

theorem Remove_maps (w : World) (n : String) : (Remove w n).1.maps = w.maps := by
  unfold Remove
  split
  · rfl
  · exact Stop_maps _ _

theorem runCalls_maps (calls : List Call) : ∀ w : World, (runCalls calls w).maps = w.maps := by
  induction calls with
  | nil => intro w; rfl
  | cons c rest ih =>
    intro w
    show (runCalls rest (c.run w)).maps = w.maps
    rw [ih]
    cases c with
    | add p start => exact Add_maps w p start
    | addOrReplace p start => exact AddOrReplace_maps w p start
    | remove n => exact Remove_maps w n
    | clear => exact clearLoop_maps _ w

/-- A reference to the map object of the collection is not a snapshot: a later
`Add` shows through it. -/
theorem live_reference_changes :
    (Add exNew 0 false).1.deref MapRef.live ≠ exNew.deref MapRef.live := by
  decide

/-- C10: `Proxies()` returns a snapshot.  The reference it returns is to a new
map object, not to the map of the collection; that object has exactly the
name-to-proxy entries of the collection at the time of the call, the collection
itself is not changed by the call, and after any sequence of later `Add`,
`AddOrReplace`, `Remove` and `Clear` calls the holder of the reference still
sees the same map. -/
theorem Proxies_snapshot (w : World) :
    ∃ m : GoMap, (Proxies w).1.deref (Proxies w).2 = some m ∧
      (∀ k : String, m.get k = w.collection.proxies.get k) ∧
      (Proxies w).2 ≠ MapRef.live ∧
      w.deref (Proxies w).2 = none ∧
      (Proxies w).1.collection = w.collection ∧
      ∀ calls : List Call, (runCalls calls (Proxies w).1).deref (Proxies w).2 = some m := by
  refine ⟨_, List.getElem?_concat_length _ _, ?_, ?_, ?_, rfl, ?_⟩
  · apply copy_get
    intro k
    cases hk : w.collection.proxies.get k with
    | none => exact Or.inl (GoMap.get_empty k)
    | some v => exact Or.inr ⟨GoMap.get_empty k, v, rfl, GoMap.mem_of_get _ _ _ hk⟩
  · intro h
    cases h
  · simp [Proxies, World.deref]
  · intro calls
    show (runCalls calls (Proxies w).1).maps[w.maps.length]? = _
    rw [runCalls_maps]
    exact List.getElem?_concat_length _ _

/-! ## `Add` and `AddOrReplace` when `Start` fails or succeeds -/

/-- `Add` of an unregistered name with `start = true`. -/
theorem Add_true_eq (w : World) (p : Ptr)
    (h : w.collection.proxies.get (w.heap p).Name = none) :
    Add w p true =
      match Proxy.Start w p with
      | (w1, some err) => (w1, some err)
      | (w1, none) => (setProxy w1 (w1.heap p).Name p, none) := by
  unfold Add
  rw [h]
  rfl

/-- C16: when the name of `p` is not registered and `p.Start` fails, `Add(p, true)`
returns exactly the error of `Start`, the contents of the collection are
unchanged, and `Get(p.Name)` fails with `ErrProxyNotFound` afterwards. -/
theorem Add_start_fails (w : World) (p : Ptr) (err : Err)
    (h : w.collection.proxies.get (w.heap p).Name = none)
    (hs : (Proxy.Start w p).2 = some err) :
    (Add w p true).2 = some err ∧
    (Add w p true).1.collection = w.collection ∧
    (∀ k : String, Get (Add w p true).1 k = Get w k) ∧
    Get (Add w p true).1 (w.heap p).Name = Except.error Err.ErrProxyNotFound := by
  have hc := Start_collection w p
  rw [Add_true_eq w p h]
  rcases hst : Proxy.Start w p with ⟨w1, _ | e1⟩
  · rw [hst] at hs
    simp at hs
  · rw [hst] at hs hc
    simp only at hs hc
    refine ⟨hs, hc, fun k => ?_, ?_⟩
    · simp [Get, getByName, hc]
    · simp [Get, getByName, hc, h]

theorem Add_start_fails_witness :
    exTaken.collection.proxies.get (exTaken.heap 2).Name = none ∧
    (Proxy.Start exTaken 2).2 = some Err.AddressInUse ∧
    (Add exTaken 2 true).2 = some Err.AddressInUse ∧
    (Add exTaken 2 true).1.collection = exTaken.collection :=
  ⟨by decide, by decide,
    (Add_start_fails exTaken 2 Err.AddressInUse (by decide) (by decide)).1,
    (Add_start_fails exTaken 2 Err.AddressInUse (by decide) (by decide)).2.1⟩

/-- C15: when the collection holds `e` under the name `n` of `p`, the listen or
upstream address of `p` differs from that of `e`, and `p.Start` fails (in the
state after `e.Stop`), `AddOrReplace(p, true)` returns the error of `Start`, the
collection is unchanged and still maps `n` to `e`, and `e` has been stopped. -/
theorem AddOrReplace_start_fails (w : World) (p e : Ptr) (n : String) (err : Err)
    (he : w.collection.proxies.get n = some e) (hp : (w.heap p).Name = n)
    (hd : (w.heap p).Listen ≠ (w.heap e).Listen ∨ (w.heap p).Upstream ≠ (w.heap e).Upstream)
    (hs : (Proxy.Start (Proxy.Stop w e) p).2 = some err) :
    (AddOrReplace w p true).2 = some err ∧
    (AddOrReplace w p true).1.collection = w.collection ∧
    (AddOrReplace w p true).1.collection.proxies.get n = some e ∧
    (AddOrReplace w p true).1.log = w.log ++ [Event.stop e, Event.start p] ∧
    ((AddOrReplace w p true).1.heap e).Enabled = false := by
  have hpe : e ≠ p := by
    rintro rfl
    rcases hd with h | h <;> exact h rfl
  have hc := Start_collection (Proxy.Stop w e) p
  have hlog := Start_log (Proxy.Stop w e) p
  have hheap := Start_heap_of_ne (Proxy.Stop w e) p e hpe
  rw [AddOrReplace_changed_eq w p e n true he hp hd]
  simp only [if_true]
  rcases hst : Proxy.Start (Proxy.Stop w e) p with ⟨w1, _ | e1⟩
  · rw [hst] at hs
    simp at hs
  · rw [hst] at hs hc hlog hheap
    simp only at hs hc hlog hheap
    rw [Stop_collection] at hc
    refine ⟨hs, hc, by rw [hc, he], ?_, ?_⟩
    · simp [hlog, Stop_log]
    · simp [hheap, Stop_heap_self]

theorem AddOrReplace_start_fails_witness :
    exBusy.collection.proxies.get "a" = some 0 ∧
    (Proxy.Start (Proxy.Stop exBusy 0) 1).2 = some Err.AddressInUse ∧
    (AddOrReplace exBusy 1 true).2 = some Err.AddressInUse ∧
    (AddOrReplace exBusy 1 true).1.collection = exBusy.collection :=
  ⟨by decide, by decide,
    (AddOrReplace_start_fails exBusy 1 0 "a" Err.AddressInUse (by decide) (by decide)
      (Or.inl (by decide)) (by decide)).1,
    (AddOrReplace_start_fails exBusy 1 0 "a" Err.AddressInUse (by decide) (by decide)
      (Or.inl (by decide)) (by decide)).2.1⟩

theorem Start_ok_Enabled (w : World) (p : Ptr) (h : (Proxy.Start w p).2 = none) :
    ((Proxy.Start w p).1.heap p).Enabled = true := by
  unfold Proxy.Start at h ⊢
  split
  · next h1 => rw [if_pos h1] at h; simp at h
  · next h1 =>
    rw [if_neg h1] at h
    split
    · next h2 => rw [if_pos h2] at h; simp at h
    · simp [World.store]

/-- The map returned by `Proxies()` has the lookups of the collection. -/
theorem Proxies_get (w : World) :
    ∃ m : GoMap, (Proxies w).1.deref (Proxies w).2 = some m ∧
      ∀ k : String, m.get k = w.collection.proxies.get k := by
  refine ⟨_, List.getElem?_concat_length _ _, ?_⟩
  apply copy_get
  intro k
  cases hk : w.collection.proxies.get k with
  | none => exact Or.inl (GoMap.get_empty k)
  | some v => exact Or.inr ⟨GoMap.get_empty k, v, rfl, GoMap.mem_of_get _ _ _ hk⟩

/-- C11: for a proxy `p` that is not running and whose name is not registered,
when `Add(p, start)` returns nil the map of `Proxies()` lists `p` under `p.Name`,
and `p` is enabled if and only if `start` is true: with `start = false` no call
of `Start` is made, and with `start = true` the call of `Start` succeeded before
`p` was registered. -/
theorem Add_running_iff (w : World) (p : Ptr) (start : Bool)
    (hrun : (w.heap p).Enabled = false)
    (h : w.collection.proxies.get (w.heap p).Name = none)
    (hok : (Add w p start).2 = none) :
    ∃ m : GoMap,
      (Proxies (Add w p start).1).1.deref (Proxies (Add w p start).1).2 = some m ∧
      m.get (w.heap p).Name = some p ∧
      (((Proxies (Add w p start).1).1.heap p).Enabled = true ↔ start = true) ∧
      (start = false → (Add w p start).1.log = w.log) ∧
      (start = true →
        (Proxy.Start w p).2 = none ∧ (Add w p start).1.log = w.log ++ [Event.start p]) := by
  obtain ⟨m, hm, hget⟩ := Proxies_get (Add w p start).1
  obtain ⟨hc, _⟩ := Add_ok w p start h hok
  refine ⟨m, hm, by rw [hget, hc, GoMap.get_set_self], ?_, ?_, ?_⟩
  · show ((Add w p start).1.heap p).Enabled = true ↔ start = true
    cases start with
    | false =>
      rw [Add_false_eq w p h]
      simp [setProxy, hrun]
    | true =>
      rw [Add_true_eq w p h] at hok ⊢
      have hen := Start_ok_Enabled w p
      rcases hst : Proxy.Start w p with ⟨w1, _ | e1⟩
      · rw [hst] at hen
        simpa [setProxy] using hen rfl
      · rw [hst] at hok
        simp at hok
  · intro hf
    subst hf
    rw [Add_false_eq w p h]
    rfl
  · intro ht
    subst ht
    rw [Add_true_eq w p h] at hok ⊢
    have hlog := Start_log w p
    rcases hst : Proxy.Start w p with ⟨w1, _ | e1⟩
    · rw [hst] at hlog
      exact ⟨rfl, by simpa [setProxy] using hlog⟩
    · rw [hst] at hok
      simp at hok

theorem Add_running_iff_witness :
    (exWorld.heap 2).Enabled = false ∧ (Add exWorld 2 true).2 = none ∧
    ∃ m : GoMap,
      (Proxies (Add exWorld 2 true).1).1.deref (Proxies (Add exWorld 2 true).1).2 = some m ∧
      m.get "b" = some 2 ∧ ((Proxies (Add exWorld 2 true).1).1.heap 2).Enabled = true :=
  ⟨by decide, by decide,
    (Add_running_iff exWorld 2 true (by decide) (by decide) (by decide)).imp
      (fun _ hx => ⟨hx.1, hx.2.1, hx.2.2.1.mpr rfl⟩)⟩

/-! ## The key/name invariant -/

theorem Allocated_get (w : World) (h : Allocated w) (k : String) (p : Ptr)
    (hk : w.collection.proxies.get k = some p) : p < w.next :=
  h (k, p) (GoMap.mem_of_get _ _ _ hk) hk

/-- A step keeps the invariant when it keeps the names of the allocated objects
and every entry of the map afterwards is an old entry or stores an allocated
proxy under its name. -/
theorem invariant_step (w w1 : World) (hk : KeysAreNames w) (ha : Allocated w)
    (hnext : w.next ≤ w1.next)
    (hnames : ∀ q : Nat, q < w.next → (w1.heap q).Name = (w.heap q).Name)
    (hcoll : ∀ (k : String) (q : Ptr), w1.collection.proxies.get k = some q →
      w.collection.proxies.get k = some q ∨ ((w1.heap q).Name = k ∧ q < w1.next)) :
    KeysAreNames w1 ∧ Allocated w1 := by
  constructor
  · intro e _ hget
    rcases hcoll e.1 e.2 hget with hold | hnew
    · rw [hnames e.2 (Allocated_get w ha _ _ hold)]
      exact KeysAreNames_get w hk _ _ hold
    · exact hnew.1
  · intro e _ hget
    rcases hcoll e.1 e.2 hget with hold | hnew
    · exact Nat.lt_of_lt_of_le (Allocated_get w ha _ _ hold) hnext
    · exact hnew.2

/-- What a call of `Add` or `AddOrReplace` can do to the state. -/
theorem set_or_same_step (w w1 : World) (p : Ptr) (hp : p < w.next)
    (hk : KeysAreNames w) (ha : Allocated w) (hnext : w1.next = w.next)
    (hfields : ∀ q, sameFields (w1.heap q) (w.heap q))
    (hcoll : w1.collection = w.collection
      ∨ w1.collection.proxies = w.collection.proxies.set (w.heap p).Name p) :
    KeysAreNames w1 ∧ Allocated w1 := by
  apply invariant_step w w1 hk ha (Nat.le_of_eq hnext.symm) (fun q _ => (hfields q).1)
  intro k q hget
  rcases hcoll with hc | hc
  · left
    rwa [hc] at hget
  · rw [hc] at hget
    by_cases hkn : k = (w.heap p).Name
    · right
      subst hkn
      rw [GoMap.get_set_self] at hget
      obtain rfl := Option.some.inj hget
      exact ⟨(hfields p).1, by rw [hnext]; exact hp⟩
    · left
      rwa [GoMap.get_set_of_ne _ _ _ _ hkn] at hget

theorem startAndSet_shape (w : World) (p : Ptr) (start : Bool) (r : World × Option Err)
    (hr : r = if start then
        match Proxy.Start w p with
        | (w1, some err) => (w1, some err)
        | (w1, none) => (setProxy w1 (w1.heap p).Name p, none)
      else (setProxy w (w.heap p).Name p, none)) :
    r.1.next = w.next ∧ (∀ q, sameFields (r.1.heap q) (w.heap q)) ∧
    (r.1.collection = w.collection
      ∨ r.1.collection.proxies = w.collection.proxies.set (w.heap p).Name p) := by
  obtain ⟨h1, _, h3, h4, h5⟩ := startAndSet_facts w p start r hr
  refine ⟨h1, h3, ?_⟩
  cases hr2 : r.2 with
  | none => exact Or.inr (h4 hr2)
  | some err => exact Or.inl (h5 err hr2)

theorem Add_shape (w : World) (p : Ptr) (start : Bool) :
    (Add w p start).1.next = w.next ∧
    (∀ q, sameFields ((Add w p start).1.heap q) (w.heap q)) ∧
    ((Add w p start).1.collection = w.collection
      ∨ (Add w p start).1.collection.proxies = w.collection.proxies.set (w.heap p).Name p) := by
  cases h : w.collection.proxies.get (w.heap p).Name with
  | some e =>
    have e1 : Add w p start = (w, some Err.ErrProxyAlreadyExists) := by
      unfold Add
      rw [h]
      rfl
    rw [e1]
    exact ⟨rfl, fun q => sameFields_refl _, Or.inl rfl⟩
  | none =>
    have e1 : Add w p start = if start then
          match Proxy.Start w p with
          | (w1, some err) => (w1, some err)
          | (w1, none) => (setProxy w1 (w1.heap p).Name p, none)
        else (setProxy w (w.heap p).Name p, none) := by
      cases start with
      | false => exact Add_false_eq w p h
      | true => exact Add_true_eq w p h
    exact startAndSet_shape w p start _ e1

theorem AddOrReplace_shape (w : World) (p : Ptr) (start : Bool) :
    (AddOrReplace w p start).1.next = w.next ∧
    (∀ q, sameFields ((AddOrReplace w p start).1.heap q) (w.heap q)) ∧
    ((AddOrReplace w p start).1.collection = w.collection
      ∨ (AddOrReplace w p start).1.collection.proxies
        = w.collection.proxies.set (w.heap p).Name p) := by
  cases h : w.collection.proxies.get (w.heap p).Name with
  | none =>
    have e1 : AddOrReplace w p start = if start then
          match Proxy.Start w p with
          | (w1, some err) => (w1, some err)
          | (w1, none) => (setProxy w1 (w1.heap p).Name p, none)
        else (setProxy w (w.heap p).Name p, none) := by
      unfold AddOrReplace
      simp only [h]
    exact startAndSet_shape w p start _ e1
  | some e =>
    by_cases hsame : (w.heap e).Listen = (w.heap p).Listen
        ∧ (w.heap e).Upstream = (w.heap p).Upstream
    · have e1 : AddOrReplace w p start = (w, none) := by
        unfold AddOrReplace
        simp only [h]
        rw [if_pos hsame]
      rw [e1]
      exact ⟨rfl, fun q => sameFields_refl _, Or.inl rfl⟩
    · have e1 : AddOrReplace w p start = if start then
            match Proxy.Start (Proxy.Stop w e) p with
            | (w1, some err) => (w1, some err)
            | (w1, none) => (setProxy w1 (w1.heap p).Name p, none)
          else (setProxy (Proxy.Stop w e) ((Proxy.Stop w e).heap p).Name p, none) := by
        unfold AddOrReplace
        simp only [h]
        rw [if_neg hsame]
      obtain ⟨h1, h2, h3⟩ := startAndSet_shape (Proxy.Stop w e) p start _ e1
      refine ⟨by rw [h1, Stop_next], fun q => sameFields_trans (h2 q) (Stop_sameFields w e q), ?_⟩
      rw [Stop_collection, Stop_Name] at h3
      exact h3

theorem clearLoop_Name (l : List (String × Ptr)) :
    ∀ (w : World) (q : Ptr), ((clearLoop l w).heap q).Name = (w.heap q).Name := by
  induction l with
  | nil => intro w q; rfl
  | cons e rest ih =>
    obtain ⟨k0, p0⟩ := e
    intro w q
    unfold clearLoop
    split
    · rw [ih]
      exact Stop_Name w p0 q
    · exact ih w q

theorem clearLoop_next (l : List (String × Ptr)) :
    ∀ w : World, (clearLoop l w).next = w.next := by
  induction l with
  | nil => intro w; rfl
  | cons e rest ih =>
    obtain ⟨k0, p0⟩ := e
    intro w
    unfold clearLoop
    split
    · rw [ih]
      exact Stop_next w p0
    · exact ih w

theorem Remove_invariant (w : World) (n : String) (hk : KeysAreNames w) (ha : Allocated w) :
    KeysAreNames (Remove w n).1 ∧ Allocated (Remove w n).1 := by
  cases h : w.collection.proxies.get n with
  | none =>
    have e1 : Remove w n = (w, some Err.ErrProxyNotFound) := by
      simp [Remove, getByName, h]
    rw [e1]
    exact ⟨hk, ha⟩
  | some e =>
    rw [Remove_registered_eq w e n h]
    apply invariant_step w _ hk ha
    · show w.next ≤ (Proxy.Stop w e).next
      rw [Stop_next]
    · intro q _
      exact Stop_Name w e q
    · intro k q hget
      left
      simp only [deleteProxy, Stop_collection] at hget
      exact GoMap.get_delete_sub _ _ _ _ hget

theorem Clear_invariant (w : World) (hk : KeysAreNames w) (ha : Allocated w) :
    KeysAreNames (Clear w).1 ∧ Allocated (Clear w).1 := by
  apply invariant_step w _ hk ha
  · exact Nat.le_of_eq (clearLoop_next _ w).symm
  · intro q _
    exact clearLoop_Name _ w q
  · intro k q hget
    exact Or.inl (clearLoop_get_sub _ w k q hget)

theorem populateStep_invariant (w : World) (p : Input) (start : Bool)
    (hk : KeysAreNames w) (ha : Allocated w) :
    KeysAreNames (AddOrReplace (createProxy w p).1 (createProxy w p).2 start).1 ∧
    Allocated (AddOrReplace (createProxy w p).1 (createProxy w p).2 start).1 := by
  have hc : KeysAreNames (createProxy w p).1 ∧ Allocated (createProxy w p).1 := by
    apply invariant_step w _ hk ha
    · rw [createProxy_next]
      exact Nat.le_succ _
    · intro q hq
      rw [createProxy_heap_of_ne w p q (Nat.ne_of_lt hq)]
    · intro k q hget
      exact Or.inl hget
  obtain ⟨h1, h2, h3⟩ := AddOrReplace_shape (createProxy w p).1 (createProxy w p).2 start
  exact set_or_same_step _ _ (createProxy w p).2
    (by rw [createProxy_snd, createProxy_next]; exact Nat.lt_succ_self _) hc.1 hc.2 h1 h2 h3

theorem populateLoop_invariant (l : List Input) :
    ∀ (w : World) (acc : List Ptr), KeysAreNames w → Allocated w →
      KeysAreNames (populateLoop l w acc).1 ∧ Allocated (populateLoop l w acc).1 := by
  induction l with
  | nil => intro w acc hk ha; exact ⟨hk, ha⟩
  | cons p rest ih =>
    intro w acc hk ha
    have hstep := populateStep_invariant w p (p.Enabled.getD false) hk ha
    rw [populateLoop_cons]
    rcases hs : AddOrReplace (createProxy w p).1 (createProxy w p).2 (p.Enabled.getD false)
      with ⟨w5, _ | err⟩
    · rw [hs] at hstep
      exact ih w5 _ hstep.1 hstep.2
    · rw [hs] at hstep
      exact hstep

theorem PopulateJson_invariant (w : World) (data : Option (List Input))
    (hk : KeysAreNames w) (ha : Allocated w) :
    KeysAreNames (PopulateJson w data).1 ∧ Allocated (PopulateJson w data).1 := by
  unfold PopulateJson
  cases data with
  | none => exact ⟨hk, ha⟩
  | some input =>
    simp only
    cases hv : validate 0 input with
    | error err => exact ⟨hk, ha⟩
    | ok input1 => exact populateLoop_invariant input1 w [] hk ha

theorem Reachable_invariant (w : World) (h : Reachable w) : KeysAreNames w ∧ Allocated w := by
  induction h with
  | new w hnew =>
    constructor
    · intro e he
      rw [hnew] at he
      simp [NewProxyCollection, GoMap.empty] at he
    · intro e he
      rw [hnew] at he
      simp [NewProxyCollection, GoMap.empty] at he
  | add w p start _ hp ih =>
    obtain ⟨h1, h2, h3⟩ := Add_shape w p start
    exact set_or_same_step w _ p hp ih.1 ih.2 h1 h2 h3
  | addOrReplace w p start _ hp ih =>
    obtain ⟨h1, h2, h3⟩ := AddOrReplace_shape w p start
    exact set_or_same_step w _ p hp ih.1 ih.2 h1 h2 h3
  | populateJson w data _ ih => exact PopulateJson_invariant w data ih.1 ih.2
  | remove w n _ ih => exact Remove_invariant w n ih.1 ih.2
  | clear w _ ih => exact Clear_invariant w ih.1 ih.2
  | outside w w1 _ hc hn hnames ih =>
    constructor
    · intro e _ hget
      rw [hc] at hget
      rw [hnames _ _ hget]
      exact KeysAreNames_get w ih.1 _ _ hget
    · intro e _ hget
      rw [hc] at hget
      exact Nat.lt_of_lt_of_le (Allocated_get w ih.2 _ _ hget) hn

/-- C6: when a collection holds a proxy `e` under the name `n`, `Remove(n)`
returns nil and stops `e`; in every collection that can be reached, `Get(n)`
fails with `ErrProxyNotFound` afterwards while `Get` of every other name returns
what it returned before; and a successful `Add` of an unregistered name followed
by `Remove` of that name restores the previous contents. -/
theorem Remove_registered_name :
    (∀ (w : World) (e : Ptr) (n : String), w.collection.proxies.get n = some e →
      (Remove w n).2 = none ∧
      (Remove w n).1.log = w.log ++ [Event.stop e] ∧
      ((Remove w n).1.heap e).Enabled = false) ∧
    (∀ (w : World), Reachable w → ∀ (e : Ptr) (n : String),
      w.collection.proxies.get n = some e →
      Get (Remove w n).1 n = Except.error Err.ErrProxyNotFound ∧
      ∀ k : String, k ≠ n → Get (Remove w n).1 k = Get w k) ∧
    (∀ (w : World) (p : Ptr) (start : Bool),
      w.collection.proxies.get (w.heap p).Name = none → (Add w p start).2 = none →
      (Remove (Add w p start).1 (w.heap p).Name).2 = none ∧
      ∀ k : String, (Remove (Add w p start).1 (w.heap p).Name).1.collection.proxies.get k
        = w.collection.proxies.get k) := by
  refine ⟨?_, ?_, ?_⟩
  · intro w e n he
    rw [Remove_registered_eq w e n he]
    refine ⟨rfl, ?_, ?_⟩
    · simp [deleteProxy, Stop_log]
    · simp [deleteProxy, Stop_heap_self]
  · intro w hr e n he
    have hn : (w.heap e).Name = n := KeysAreNames_get w (Reachable_invariant w hr).1 n e he
    rw [Remove_registered_eq w e n he, hn]
    constructor
    · simp [Get, getByName, deleteProxy, GoMap.get_delete_self]
    · intro k hk
      simp [Get, getByName, deleteProxy, GoMap.get_delete_of_ne _ _ _ hk, Stop_collection]
  · intro w p start h hok
    obtain ⟨hc, hnm⟩ := Add_ok w p start h hok
    have hget : (Add w p start).1.collection.proxies.get (w.heap p).Name = some p := by
      rw [hc, GoMap.get_set_self]
    rw [Remove_registered_eq _ p _ hget, hnm p]
    refine ⟨rfl, fun k => ?_⟩
    by_cases hk : k = (w.heap p).Name
    · subst hk
      simp [deleteProxy, GoMap.get_delete_self, h]
    · simp [deleteProxy, GoMap.get_delete_of_ne _ _ _ hk, Stop_collection, hc,
        GoMap.get_set_of_ne _ _ _ _ hk]

theorem Remove_registered_name_witness :
    Reachable exTwo ∧ exTwo.collection.proxies.get "a" = some 0 ∧
    exTwo.collection.proxies.get "b" = some 1 ∧
    (Remove exTwo "a").2 = none ∧
    Get (Remove exTwo "a").1 "a" = Except.error Err.ErrProxyNotFound ∧
    Get (Remove exTwo "a").1 "b" = Except.ok 1 :=
  ⟨Reachable.add _ _ _ (Reachable.add _ _ _ (Reachable.new _ rfl) (by decide)) (by decide),
    by decide, by decide,
    (Remove_registered_name.1 exTwo 0 "a" (by decide)).1,
    (Remove_registered_name.2.1 exTwo
      (Reachable.add _ _ _ (Reachable.add _ _ _ (Reachable.new _ rfl) (by decide)) (by decide))
      0 "a" (by decide)).1,
    ((Remove_registered_name.2.1 exTwo
      (Reachable.add _ _ _ (Reachable.add _ _ _ (Reachable.new _ rfl) (by decide)) (by decide))
      0 "a" (by decide)).2 "b" (by decide)).trans rfl⟩

/-- The loop of `Clear`, run over the entries in any order, stops every
registered proxy and empties the map when the keys are the names. -/
theorem clearLoop_all (w : World) (hinv : KeysAreNames w) (l : List (String × Ptr))
    (hl : ∀ e, e ∈ w.collection.proxies.entries → e ∈ l) :
    (clearLoop l w).collection.proxies = GoMap.empty ∧
    ∀ (k : String) (p : Ptr), w.collection.proxies.get k = some p →
      Event.stop p ∈ (clearLoop l w).log ∧ ((clearLoop l w).heap p).Enabled = false := by
  constructor
  · apply GoMap.eq_empty_of_get
    intro k
    cases hk : (clearLoop l w).collection.proxies.get k with
    | none => rfl
    | some p =>
      have h1 := clearLoop_get_sub l w k p hk
      exact absurd hk (clearLoop_visits l w hinv k p (hl _ (GoMap.mem_of_get _ _ _ h1)))
  · intro k p hk
    exact clearLoop_stops l w hinv k p (hl _ (GoMap.mem_of_get _ _ _ hk)) hk

/-- C7: in every collection that can be reached, `Clear` returns nil, stops every
proxy that was registered, and leaves the collection empty: afterwards the map
of `Proxies()` is empty and `Get` fails for every name.  The same holds for the
loop of `Clear` run over the entries in any other order. -/
theorem Clear_all (w : World) (h : Reachable w) :
    (Clear w).2 = none ∧
    (∀ (k : String) (p : Ptr), w.collection.proxies.get k = some p →
      Event.stop p ∈ (Clear w).1.log ∧ ((Clear w).1.heap p).Enabled = false) ∧
    (Clear w).1.collection.proxies = GoMap.empty ∧
    (Proxies (Clear w).1).1.deref (Proxies (Clear w).1).2 = some GoMap.empty ∧
    (∀ k : String, Get (Clear w).1 k = Except.error Err.ErrProxyNotFound) ∧
    (∀ l : List (String × Ptr), l.Perm w.collection.proxies.entries →
      (clearLoop l w).collection.proxies = GoMap.empty ∧
      ∀ (k : String) (p : Ptr), w.collection.proxies.get k = some p →
        Event.stop p ∈ (clearLoop l w).log ∧ ((clearLoop l w).heap p).Enabled = false) := by
  have hinv := (Reachable_invariant w h).1
  obtain ⟨hempty, hstop⟩ := clearLoop_all w hinv w.collection.proxies.entries (fun _ he => he)
  have hempty2 : (Clear w).1.collection.proxies = GoMap.empty := hempty
  refine ⟨rfl, hstop, hempty, ?_, ?_, ?_⟩
  · simp [Proxies, World.deref, hempty2, GoMap.empty]
  · intro k
    simp [Get, getByName, hempty2, GoMap.get_empty]
  · intro l hl
    exact clearLoop_all w hinv l (fun e he => hl.symm.subset he)

theorem Clear_all_witness :
    Reachable exThree ∧
    exThree.collection.proxies.entries.length = 3 ∧
    (Clear exThree).2 = none ∧
    (Clear exThree).1.collection.proxies = GoMap.empty ∧
    (Event.stop 0 ∈ (Clear exThree).1.log ∧ ((Clear exThree).1.heap 0).Enabled = false) ∧
    Event.stop 1 ∈ (Clear exThree).1.log ∧ Event.stop 2 ∈ (Clear exThree).1.log :=
  have hr : Reachable exThree :=
    Reachable.add _ _ _ (Reachable.add _ _ _ (Reachable.add _ _ _ (Reachable.new _ rfl)
      (by decide)) (by decide)) (by decide)
  ⟨hr, by decide, (Clear_all exThree hr).1, (Clear_all exThree hr).2.2.1,
    (Clear_all exThree hr).2.1 "a" 0 (by decide),
    ((Clear_all exThree hr).2.1 "b" 1 (by decide)).1,
    ((Clear_all exThree hr).2.1 "c" 2 (by decide)).1⟩

/-- C14: in every collection reachable from `NewProxyCollection` by `Add`,
`AddOrReplace`, `PopulateJson`, `Remove` and `Clear` (and steps of the rest of the
program that assign no `Name` of a stored proxy), every key of the map is the
`Name` of the proxy stored under it, so two registered proxies that have the same
`Name` are one entry. -/
theorem Reachable_keys_are_names (w : World) (h : Reachable w) :
    (∀ (k : String) (p : Ptr), w.collection.proxies.get k = some p → (w.heap p).Name = k) ∧
    (∀ (k1 k2 : String) (p1 p2 : Ptr), w.collection.proxies.get k1 = some p1 →
      w.collection.proxies.get k2 = some p2 → (w.heap p1).Name = (w.heap p2).Name →
      k1 = k2 ∧ p1 = p2) := by
  have hinv := (Reachable_invariant w h).1
  refine ⟨fun k p hk => KeysAreNames_get w hinv k p hk, ?_⟩
  intro k1 k2 p1 p2 h1 h2 hn
  have e1 := KeysAreNames_get w hinv k1 p1 h1
  have e2 := KeysAreNames_get w hinv k2 p2 h2
  have hk : k1 = k2 := by rw [← e1, ← e2, hn]
  subst hk
  rw [h1] at h2
  exact ⟨rfl, Option.some.inj h2⟩

theorem Reachable_keys_are_names_witness :
    Reachable (Remove (Add (Add exNew 0 true).1 1 false).1 "a").1 ∧
    ∀ (k : String) (p : Ptr),
      (Remove (Add (Add exNew 0 true).1 1 false).1 "a").1.collection.proxies.get k = some p →
      ((Remove (Add (Add exNew 0 true).1 1 false).1 "a").1.heap p).Name = k :=
  ⟨Reachable.remove _ _ (Reachable.add _ _ _ (Reachable.add _ _ _ (Reachable.new _ rfl)
      (by decide)) (by decide)),
    (Reachable_keys_are_names _ (Reachable.remove _ _ (Reachable.add _ _ _
      (Reachable.add _ _ _ (Reachable.new _ rfl) (by decide)) (by decide)))).1⟩

/-! ## `PopulateJson` without an error -/

/-- A successful `AddOrReplace` writes `proxies[p.Name] = p` unless the name is
registered with the listen and upstream addresses of `p`. -/
theorem AddOrReplace_ok_set (w : World) (p : Ptr) (start : Bool)
    (hdiff : ∀ e, w.collection.proxies.get (w.heap p).Name = some e →
      (w.heap p).Listen ≠ (w.heap e).Listen ∨ (w.heap p).Upstream ≠ (w.heap e).Upstream)
    (hok : (AddOrReplace w p start).2 = none) :
    (AddOrReplace w p start).1.collection.proxies
      = w.collection.proxies.set (w.heap p).Name p := by
  cases h : w.collection.proxies.get (w.heap p).Name with
  | none => exact (AddOrReplace_fresh w p start h).2.2.1 hok
  | some e =>
    have e1 := AddOrReplace_changed_eq w p e _ start h rfl (hdiff e h)
    obtain ⟨_, _, _, h4, _⟩ := startAndSet_facts (Proxy.Stop w e) p start _ e1
    rw [Stop_collection, Stop_Name] at h4
    exact h4 hok

theorem populateLoop_set (l : List Input) :
    ∀ (w : World) (acc : List Ptr) (wk : World) (ps : List Ptr),
      populateLoop l w acc = (wk, ps, none) →
      (l.map (fun p => p.Name)).Nodup →
      (∀ (k : String) (q : Ptr), w.collection.proxies.get k = some q → q < w.next) →
      (∀ p ∈ l, ∀ e, w.collection.proxies.get p.Name = some e →
        p.Listen ≠ (w.heap e).Listen ∨ p.Upstream ≠ (w.heap e).Upstream) →
      ps = acc ++ (List.range l.length).map (fun i => w.next + i) ∧
      wk.next = w.next + l.length ∧
      (∀ (i : Nat) (p : Input), l[i]? = some p →
        wk.collection.proxies.get p.Name = some (w.next + i) ∧
        sameFields (wk.heap (w.next + i)) ⟨p.Name, p.Listen, p.Upstream, false⟩) ∧
      (∀ k : String, k ∉ l.map (fun p => p.Name) →
        wk.collection.proxies.get k = w.collection.proxies.get k) ∧
      (∀ q : Nat, q < w.next → sameFields (wk.heap q) (w.heap q)) := by
  induction l with
  | nil =>
    intro w acc wk ps h _ _ _
    simp only [populateLoop, Prod.mk.injEq] at h
    obtain ⟨rfl, rfl, _⟩ := h
    refine ⟨by simp, rfl, ?_, fun _ _ => rfl, fun _ _ => sameFields_refl _⟩
    intro i p hi
    simp at hi
  | cons p rest ih =>
    intro w acc wk ps h hnd hal hdf
    rw [populateLoop_cons] at h
    have hself : (createProxy w p).1.heap (createProxy w p).2
        = ⟨p.Name, p.Listen, p.Upstream, false⟩ := by
      rw [createProxy_snd, createProxy_heap_self]
    have hdiff : ∀ e, (createProxy w p).1.collection.proxies.get
        ((createProxy w p).1.heap (createProxy w p).2).Name = some e →
        ((createProxy w p).1.heap (createProxy w p).2).Listen ≠ ((createProxy w p).1.heap e).Listen
        ∨ ((createProxy w p).1.heap (createProxy w p).2).Upstream
          ≠ ((createProxy w p).1.heap e).Upstream := by
      intro e he
      rw [hself] at he ⊢
      rw [createProxy_collection] at he
      rw [createProxy_heap_of_ne w p e (Nat.ne_of_lt (hal _ _ he))]
      exact hdf p (List.mem_cons_self _ _) e he
    have hset := AddOrReplace_ok_set (createProxy w p).1 (createProxy w p).2
      (p.Enabled.getD false) hdiff
    obtain ⟨hnext, hfields, _⟩ :=
      AddOrReplace_shape (createProxy w p).1 (createProxy w p).2 (p.Enabled.getD false)
    rw [createProxy_next] at hnext
    rcases hs : AddOrReplace (createProxy w p).1 (createProxy w p).2 (p.Enabled.getD false)
      with ⟨w5, _ | err⟩
    · rw [hs] at h hnext hfields hset
      simp only at h hnext hfields
      have hset := hset rfl
      rw [hself, createProxy_collection, createProxy_snd] at hset
      simp only at hset
      rw [List.map_cons, List.nodup_cons] at hnd
      have hold5 : ∀ q : Nat, q < w.next → sameFields (w5.heap q) (w.heap q) := by
        intro q hq
        have h2 := hfields q
        rw [createProxy_heap_of_ne w p q (Nat.ne_of_lt hq)] at h2
        exact h2
      have hne : ∀ q ∈ rest, q.Name ≠ p.Name := by
        intro q hq heq
        exact hnd.1 (heq ▸ List.mem_map_of_mem (fun p => p.Name) hq)
      have hal5 : ∀ (k : String) (q : Ptr), w5.collection.proxies.get k = some q →
          q < w5.next := by
        intro k q hk
        rw [hnext]
        rw [hset] at hk
        by_cases hkp : k = p.Name
        · subst hkp
          rw [GoMap.get_set_self] at hk
          obtain rfl := Option.some.inj hk
          exact Nat.lt_succ_self _
        · rw [GoMap.get_set_of_ne _ _ _ _ hkp] at hk
          exact Nat.lt_succ_of_lt (hal _ _ hk)
      have hdf5 : ∀ q ∈ rest, ∀ e, w5.collection.proxies.get q.Name = some e →
          q.Listen ≠ (w5.heap e).Listen ∨ q.Upstream ≠ (w5.heap e).Upstream := by
        intro q hq e he
        rw [hset, GoMap.get_set_of_ne _ _ _ _ (hne q hq)] at he
        have hs5 := hold5 e (hal _ _ he)
        rw [hs5.2.1, hs5.2.2]
        exact hdf q (List.mem_cons_of_mem _ hq) e he
      obtain ⟨hps, hnk, hreg, hframe, hold⟩ := ih w5 _ wk ps h hnd.2 hal5 hdf5
      rw [hnext] at hps hnk hreg
      refine ⟨?_, ?_, ?_, ?_, ?_⟩
      · rw [hps, createProxy_snd, List.append_assoc, List.length_cons]
        congr 1
        exact range_shift w.next rest.length
      · rw [hnk, List.length_cons]
        omega
      · intro i q hi
        cases i with
        | zero =>
          simp only [List.getElem?_cons_zero, Option.some.injEq] at hi
          subst hi
          constructor
          · rw [hframe _ hnd.1, hset, GoMap.get_set_self, Nat.add_zero]
          · rw [Nat.add_zero]
            have h1 := hold w.next (by omega)
            have h2 := hfields w.next
            rw [createProxy_heap_self] at h2
            exact sameFields_trans h1 h2
        | succ i =>
          simp only [List.getElem?_cons_succ] at hi
          have := hreg i q hi
          rw [show w.next + (i + 1) = w.next + 1 + i by omega]
          exact this
      · intro k hk
        rw [List.map_cons, List.mem_cons, not_or] at hk
        rw [hframe k hk.2, hset, GoMap.get_set_of_ne _ _ _ _ hk.1]
      · intro q hq
        exact sameFields_trans (hold q (by omega)) (hold5 q hq)
    · rw [hs] at h
      simp at h

/-- C17, the claim fails.  In `exWorld` the name `a` is registered with the proxy
at address 0; `PopulateJson` of an entry with the same name, listen address and
upstream returns nil and the new proxy at address 3, while `a` still maps to the
proxy at address 0.  And for a batch of two entries named `c` it returns the
proxies at addresses 3 and 4, both named `c`, while `c` maps to the second. -/
theorem PopulateJson_returns_registered_counterexample :
    ((PopulateJson exWorld (some exSameBatch)).2 = (some [3], none) ∧
      ((PopulateJson exWorld (some exSameBatch)).1.heap 3).Name = "a" ∧
      Get (PopulateJson exWorld (some exSameBatch)).1 "a" = Except.ok 0) ∧
    ((PopulateJson exWorld (some exTwiceBatch)).2 = (some [3, 4], none) ∧
      ((PopulateJson exWorld (some exTwiceBatch)).1.heap 3).Name = "c" ∧
      Get (PopulateJson exWorld (some exTwiceBatch)).1 "c" = Except.ok 4) :=
  ⟨⟨by decide, by decide, rfl⟩, ⟨by decide, by decide, rfl⟩⟩

/-- C17, amended: when `PopulateJson` returns no error for a batch whose names
are pairwise distinct and in which no entry has the listen address and upstream
of the proxy registered under its name, each proxy in the returned list is the
proxy the collection holds under that proxy's name afterwards, and the list has
one proxy per entry in input order: the `i`-th is the `i`-th object allocated
and carries the fields of entry `i`. -/
theorem PopulateJson_returns_registered (w w1 : World) (input : List Input) (ps : List Ptr)
    (ha : Allocated w)
    (hd : (input.map (fun p => p.Name)).Nodup)
    (hdf : ∀ p ∈ input, ∀ e, w.collection.proxies.get p.Name = some e →
      p.Listen ≠ (w.heap e).Listen ∨ p.Upstream ≠ (w.heap e).Upstream)
    (hr : PopulateJson w (some input) = (w1, some ps, none)) :
    ps.length = input.length ∧
    (∀ q ∈ ps, Get w1 (w1.heap q).Name = Except.ok q) ∧
    (∀ (i : Nat) (p : Input), input[i]? = some p →
      ps[i]? = some (w.next + i) ∧
      (w1.heap (w.next + i)).Name = p.Name ∧
      (w1.heap (w.next + i)).Listen = p.Listen ∧
      (w1.heap (w.next + i)).Upstream = p.Upstream) := by
  unfold PopulateJson at hr
  simp only at hr
  cases hv : validate 0 input with
  | error err =>
    rw [hv] at hr
    simp at hr
  | ok input1 =>
    rw [hv] at hr
    simp only [Prod.mk.injEq, Option.some.injEq] at hr
    have hloop : populateLoop input1 w [] = (w1, ps, none) := by
      rcases hp : populateLoop input1 w [] with ⟨a, b, c⟩
      rw [hp] at hr
      simp only at hr
      obtain ⟨rfl, rfl, rfl⟩ := hr
      rfl
    have hmap := validate_ok input 0 input1 hv
    have hnames : input1.map (fun p => p.Name) = input.map (fun p => p.Name) := by
      rw [hmap, List.map_map]
      rfl
    have hdf1 : ∀ p ∈ input1, ∀ e, w.collection.proxies.get p.Name = some e →
        p.Listen ≠ (w.heap e).Listen ∨ p.Upstream ≠ (w.heap e).Upstream := by
      intro p hp
      rw [hmap] at hp
      obtain ⟨q, hq, rfl⟩ := List.mem_map.mp hp
      exact hdf q hq
    obtain ⟨hps, _, hreg, _, _⟩ := populateLoop_set input1 w [] w1 ps hloop
      (by rw [hnames]; exact hd) (fun k q hk => Allocated_get w ha k q hk) hdf1
    rw [List.nil_append] at hps
    have hlen : input1.length = input.length := by rw [hmap, List.length_map]
    rw [hlen] at hps
    have hat : ∀ (i : Nat) (p : Input), input[i]? = some p →
        input1[i]? = some (defaultEnabled p) := by
      intro i p hp
      rw [hmap, List.getElem?_map, hp]
      rfl
    refine ⟨by rw [hps, List.length_map, List.length_range], ?_, ?_⟩
    · intro q hq
      rw [hps] at hq
      obtain ⟨i, hi, rfl⟩ := List.mem_map.mp hq
      have hi2 : i < input.length := List.mem_range.mp hi
      obtain ⟨h1, h2⟩ := hreg i _ (hat i input[i] (List.getElem?_eq_getElem hi2))
      simp only [Get, getByName]
      rw [h2.1]
      show (match w1.collection.proxies.get (defaultEnabled input[i]).Name with
        | none => Except.error Err.ErrProxyNotFound
        | some proxy => Except.ok proxy) = _
      rw [h1]
    · intro i p hp
      obtain ⟨h1, h2⟩ := hreg i _ (hat i p hp)
      have hi2 : i < input.length := (List.getElem?_eq_some_iff.mp hp).1
      refine ⟨?_, h2.1, h2.2.1, h2.2.2⟩
      rw [hps, List.getElem?_map, List.getElem?_range hi2]
      rfl

theorem PopulateJson_returns_registered_witness :
    (PopulateJson exWorld (some exGoodBatch)).2 = (some [3, 4], none) ∧
    Get (PopulateJson exWorld (some exGoodBatch)).1
      ((PopulateJson exWorld (some exGoodBatch)).1.heap 3).Name = Except.ok 3 ∧
    Get (PopulateJson exWorld (some exGoodBatch)).1
      ((PopulateJson exWorld (some exGoodBatch)).1.heap 4).Name = Except.ok 4 :=
  have h := PopulateJson_returns_registered exWorld (PopulateJson exWorld (some exGoodBatch)).1
    exGoodBatch [3, 4] (by decide) (by decide) (by decide) rfl
  ⟨by decide, h.2.1 3 (by decide), h.2.1 4 (by decide)⟩

/-! ## The `enabled` field in `PopulateJson` -/

theorem toxicLoop_acc {S J B T : Type} (ops : ToxicOps S J B T) (proxy : Ptr) (l : List J) :
    ∀ (s : S) (acc : List T), toxicLoop ops proxy l s acc
      = ((toxicLoop ops proxy l s []).1, acc ++ (toxicLoop ops proxy l s []).2) := by
  induction l with
  | nil => intro s acc; simp [toxicLoop]
  | cons t rest ih =>
    intro s acc
    unfold toxicLoop
    cases ops.Marshal t with
    | none => simp
    | some data =>
      simp only
      rcases ops.AddToxicJson s proxy data with ⟨s1, _ | toxic⟩
      · simp
      · simp only
        rw [ih s1 (acc ++ [toxic]), ih s1 ([] ++ [toxic])]
        simp

theorem toxicLoop_cons {S J B T : Type} (ops : ToxicOps S J B T) (proxy : Ptr)
    (t : J) (rest : List J) (s : S) (acc : List T) :
    toxicLoop ops proxy (t :: rest) s acc =
      match ops.Marshal t with
      | none => (s, acc)
      | some data =>
        match ops.AddToxicJson s proxy data with
        | (s1, none) => (s1, acc)
        | (s1, some toxic) => toxicLoop ops proxy rest s1 (acc ++ [toxic]) := rfl

theorem toxicLoop_append {S J B T : Type} (ops : ToxicOps S J B T) (proxy : Ptr)
    (l1 l2 : List J) :
    ∀ (s : S) (acc : List T), toxicsAccepted ops proxy l1 s = true →
      toxicLoop ops proxy (l1 ++ l2) s acc
        = toxicLoop ops proxy l2 (toxicLoop ops proxy l1 s acc).1
            (toxicLoop ops proxy l1 s acc).2 := by
  induction l1 with
  | nil => intro s acc _; rfl
  | cons t rest ih =>
    intro s acc h
    rw [List.cons_append]
    unfold toxicsAccepted at h
    have e1 := toxicLoop_cons ops proxy t (rest ++ l2) s acc
    have e2 := toxicLoop_cons ops proxy t rest s acc
    cases hm : ops.Marshal t with
    | none => rw [hm] at h; simp at h
    | some data =>
      rw [hm] at h e1 e2
      simp only at h e1 e2
      rcases ha : ops.AddToxicJson s proxy data with ⟨s1, _ | toxic⟩
      · rw [ha] at h
        simp at h
      · rw [ha] at h e1 e2
        simp only at h e1 e2
        rw [e1, e2]
        exact ih s1 _ h

theorem toxicLoop_accepted {S J B T : Type} (ops : ToxicOps S J B T) (proxy : Ptr)
    (l : List J) :
    ∀ (s : S), toxicsAccepted ops proxy l s = true →
      List.Forall₂ (fun t x => ∃ s0 data s1, ops.Marshal t = some data ∧
        ops.AddToxicJson s0 proxy data = (s1, some x)) l (toxicLoop ops proxy l s []).2 := by
  induction l with
  | nil => intro s _; exact List.Forall₂.nil
  | cons t rest ih =>
    intro s h
    unfold toxicsAccepted at h
    unfold toxicLoop
    cases hm : ops.Marshal t with
    | none => rw [hm] at h; simp at h
    | some data =>
      rw [hm] at h
      simp only at h ⊢
      rcases ha : ops.AddToxicJson s proxy data with ⟨s1, _ | toxic⟩
      · rw [ha] at h
        simp at h
      · rw [ha] at h
        simp only at h ⊢
        rw [toxicLoop_acc]
        exact List.Forall₂.cons ⟨s, data, s1, hm, ha⟩ (ih s1 h)

theorem proxyLoop_acc {S J B T : Type} (ops : ToxicOps S J B T) (w : World)
    (l : List (ToxicConfig J)) :
    ∀ (s : S) (acc : List T), proxyLoop ops w l s acc
      = ((proxyLoop ops w l s []).1, acc ++ (proxyLoop ops w l s []).2) := by
  induction l with
  | nil => intro s acc; simp [proxyLoop]
  | cons p rest ih =>
    intro s acc
    unfold proxyLoop
    cases Get w p.Name with
    | error e => simp
    | ok proxy =>
      simp only
      rw [ih _ (toxicLoop ops proxy p.Toxics s acc).2,
        ih _ (toxicLoop ops proxy p.Toxics s []).2, toxicLoop_acc ops proxy p.Toxics s acc]
      simp

theorem proxyLoop_accepted {S J B T : Type} (ops : ToxicOps S J B T) (w : World)
    (l : List (ToxicConfig J)) :
    ∀ (s : S), configAccepted ops w l s = true →
      List.Forall₂ (fun (nt : String × J) x => ∃ proxy s0 data s1,
          Get w nt.1 = Except.ok proxy ∧ ops.Marshal nt.2 = some data ∧
          ops.AddToxicJson s0 proxy data = (s1, some x))
        (l.flatMap (fun c => c.Toxics.map (fun t => (c.Name, t))))
        (proxyLoop ops w l s []).2 := by
  induction l with
  | nil => intro s _; exact List.Forall₂.nil
  | cons p rest ih =>
    intro s h
    unfold configAccepted at h
    unfold proxyLoop
    cases hg : Get w p.Name with
    | error e => rw [hg] at h; simp at h
    | ok proxy =>
      rw [hg] at h
      simp only [Bool.and_eq_true] at h
      simp only [List.flatMap_cons]
      rw [proxyLoop_acc]
      apply List.rel_append
      · rw [List.forall₂_map_left_iff]
        exact (toxicLoop_accepted ops proxy p.Toxics s h.1).imp
          (fun t x ⟨s0, data, s1, h1, h2⟩ => ⟨proxy, s0, data, s1, hg, h1, h2⟩)
      · exact ih _ h.2

theorem proxyLoop_unregistered {S J B T : Type} (ops : ToxicOps S J B T) (w : World)
    (c : ToxicConfig J) (post : List (ToxicConfig J))
    (hc : w.collection.proxies.get c.Name = none) (pre : List (ToxicConfig J)) :
    ∀ (s : S) (acc : List T),
      proxyLoop ops w (pre ++ c :: post) s acc = proxyLoop ops w pre s acc := by
  induction pre with
  | nil =>
    intro s acc
    simp [proxyLoop, Get, getByName, hc]
  | cons p rest ih =>
    intro s acc
    rw [List.cons_append]
    unfold proxyLoop
    cases Get w p.Name with
    | error e => rfl
    | ok proxy => exact ih _ _

/-- C12: when every name of the decoded configuration is registered and every
toxic is accepted when the loops reach it, `PopulateToxicsJson` returns a nil
error and a list that holds exactly one toxic per configured toxic, in
configuration order: the toxic `AddToxicJson` returned for it on the proxy
registered under the name of its entry. -/
theorem PopulateToxicsJson_all {S J B T : Type} (ops : ToxicOps S J B T) (w : World) (s : S)
    (config : List (ToxicConfig J)) (h : configAccepted ops w config s = true) :
    (PopulateToxicsJson ops w s (some config)).2.2 = none ∧
    ∃ toxics : List T, (PopulateToxicsJson ops w s (some config)).2.1 = some toxics ∧
      toxics.length = (config.map (fun c => c.Toxics.length)).sum ∧
      List.Forall₂ (fun (nt : String × J) x => ∃ proxy s0 data s1,
          Get w nt.1 = Except.ok proxy ∧ ops.Marshal nt.2 = some data ∧
          ops.AddToxicJson s0 proxy data = (s1, some x))
        (config.flatMap (fun c => c.Toxics.map (fun t => (c.Name, t)))) toxics := by
  have hall := proxyLoop_accepted ops w config s h
  refine ⟨rfl, _, rfl, ?_, hall⟩
  rw [← hall.length_eq, List.length_flatMap]
  congr 1
  apply List.map_congr_left
  intro c _
  simp

theorem PopulateToxicsJson_all_witness :
    configAccepted (specToxicOps exKinds) exWorld exToxicConfig exNoToxics = true ∧
    (PopulateToxicsJson (specToxicOps exKinds) exWorld exNoToxics (some exToxicConfig)).2.2
      = none ∧
    ∃ toxics : List ToxicWrapper,
      (PopulateToxicsJson (specToxicOps exKinds) exWorld exNoToxics (some exToxicConfig)).2.1
        = some toxics ∧ toxics.length = 2 :=
  ⟨by decide,
    (PopulateToxicsJson_all (specToxicOps exKinds) exWorld exNoToxics exToxicConfig
      (by decide)).1,
    (PopulateToxicsJson_all (specToxicOps exKinds) exWorld exNoToxics exToxicConfig
      (by decide)).2.imp (fun _ hx => ⟨hx.1, hx.2.1⟩)⟩

theorem toxicLoop_spec {S J B T : Type} (ops : ToxicOps S J B T) (proxy : Ptr) (l : List J) :
    ∀ (s : S) (acc : List T), ∃ xs : List T,
      (toxicLoop ops proxy l s acc).2 = acc ++ xs ∧
      EntryDone ops proxy l s (toxicLoop ops proxy l s acc).1 xs := by
  induction l with
  | nil =>
    intro s acc
    exact ⟨[], by simp [toxicLoop], [], [], s, rfl, ⟨rfl, rfl⟩, Or.inl ⟨rfl, rfl⟩⟩
  | cons t rest ih =>
    intro s acc
    rw [toxicLoop_cons]
    cases hm : ops.Marshal t with
    | none =>
      exact ⟨[], by simp, [], t :: rest, s, rfl, ⟨rfl, rfl⟩,
        Or.inr ⟨t, rest, rfl, Or.inl ⟨hm, rfl⟩⟩⟩
    | some data =>
      simp only
      rcases ha : ops.AddToxicJson s proxy data with ⟨s1, _ | x⟩
      · exact ⟨[], by simp, [], t :: rest, s, rfl, ⟨rfl, rfl⟩,
          Or.inr ⟨t, rest, rfl, Or.inr ⟨data, hm, ha⟩⟩⟩
      · simp only
        obtain ⟨xs, hxs, added, skipped, s0, hsplit, hadd, hend⟩ := ih s1 (acc ++ [x])
        refine ⟨x :: xs, by rw [hxs]; simp, t :: added, skipped, s0, by rw [hsplit]; rfl,
          ⟨data, s1, x, xs, hm, ha, rfl, hadd⟩, hend⟩

theorem proxyLoop_spec {S J B T : Type} (ops : ToxicOps S J B T) (w : World)
    (l : List (ToxicConfig J)) :
    ∀ (s : S) (acc : List T), ∃ (handled dropped : List (ToxicConfig J)) (xs : List T),
      l = handled ++ dropped ∧
      (dropped = [] ∨ ∃ c rest, dropped = c :: rest ∧ w.collection.proxies.get c.Name = none) ∧
      EntriesDone ops w handled s (proxyLoop ops w l s acc).1 xs ∧
      (proxyLoop ops w l s acc).2 = acc ++ xs := by
  induction l with
  | nil =>
    intro s acc
    exact ⟨[], [], [], rfl, Or.inl rfl, ⟨rfl, rfl⟩, by simp [proxyLoop]⟩
  | cons c rest ih =>
    intro s acc
    cases hc : w.collection.proxies.get c.Name with
    | none =>
      have e1 : proxyLoop ops w (c :: rest) s acc = (s, acc) := by
        simp [proxyLoop, Get, getByName, hc]
      rw [e1]
      exact ⟨[], c :: rest, [], rfl, Or.inr ⟨c, rest, rfl, hc⟩, ⟨rfl, rfl⟩, by simp⟩
    | some proxy =>
      have e1 : proxyLoop ops w (c :: rest) s acc
          = proxyLoop ops w rest (toxicLoop ops proxy c.Toxics s acc).1
              (toxicLoop ops proxy c.Toxics s acc).2 := by
        simp [proxyLoop, Get, getByName, hc]
      rw [e1]
      obtain ⟨xs0, hxs0, hentry⟩ := toxicLoop_spec ops proxy c.Toxics s acc
      obtain ⟨handled, dropped, xs1, hsplit, hdrop, hdone, hxs1⟩ :=
        ih (toxicLoop ops proxy c.Toxics s acc).1 (toxicLoop ops proxy c.Toxics s acc).2
      refine ⟨c :: handled, dropped, xs0 ++ xs1, by rw [hsplit]; rfl, hdrop,
        ⟨proxy, _, xs0, xs1, hc, hentry, hdone, rfl⟩, ?_⟩
      rw [hxs1, hxs0, List.append_assoc]

/-- C19: `PopulateToxicsJson` returns a non-nil error exactly when the input
fails to decode, and a list with a nil error otherwise.  For a decoded
configuration the entries up to the first name that is not registered are
handled and that entry and all later ones are dropped; of a handled entry the
toxics are added in order up to the first one that is rejected, the toxics
after it are skipped, and the next entry is handled all the same; the list
returned holds exactly the toxics added, in order. -/
theorem PopulateToxicsJson_errors {S J B T : Type} (ops : ToxicOps S J B T) (w : World) :
    (∀ (s : S) (data : Option (List (ToxicConfig J))),
      ((PopulateToxicsJson ops w s data).2.2 ≠ none ↔ data = none) ∧
      (data ≠ none → (PopulateToxicsJson ops w s data).2.1 ≠ none)) ∧
    (∀ (s : S) (config : List (ToxicConfig J)),
      ∃ (handled dropped : List (ToxicConfig J)) (s1 : S) (xs : List T),
        config = handled ++ dropped ∧
        (dropped = [] ∨
          ∃ c rest, dropped = c :: rest ∧ w.collection.proxies.get c.Name = none) ∧
        EntriesDone ops w handled s s1 xs ∧
        PopulateToxicsJson ops w s (some config) = (s1, some xs, none)) ∧
    (∀ (s : S) (pre : List (ToxicConfig J)) (c : ToxicConfig J) (post : List (ToxicConfig J)),
      w.collection.proxies.get c.Name = none →
      PopulateToxicsJson ops w s (some (pre ++ c :: post))
        = PopulateToxicsJson ops w s (some pre)) := by
  refine ⟨?_, ?_, ?_⟩
  · intro s data
    cases data with
    | none => simp [PopulateToxicsJson]
    | some config => simp [PopulateToxicsJson]
  · intro s config
    obtain ⟨handled, dropped, xs, hsplit, hdrop, hdone, hxs⟩ := proxyLoop_spec ops w config s []
    refine ⟨handled, dropped, _, xs, hsplit, hdrop, hdone, ?_⟩
    simp only [PopulateToxicsJson]
    rw [hxs, List.nil_append]
  · intro s pre c post hc
    simp only [PopulateToxicsJson]
    rw [proxyLoop_unregistered ops w c post hc pre s []]

theorem PopulateToxicsJson_errors_witness :
    exWorld.collection.proxies.get "zz" = none ∧
    PopulateToxicsJson (specToxicOps exKinds) exWorld exNoToxics
        (some (exMixedConfig.take 2 ++ ⟨"zz", [exLimit]⟩ :: exMixedConfig.drop 3))
      = PopulateToxicsJson (specToxicOps exKinds) exWorld exNoToxics
        (some (exMixedConfig.take 2)) ∧
    (PopulateToxicsJson (specToxicOps exKinds) exWorld exNoToxics (some exMixedConfig)).2
      = (some [⟨"latency_downstream", "latency", Direction.downstream, (1, 1),
            [("latency", 100), ("jitter", 0)], true⟩,
          ⟨"limit_data_downstream", "limit_data", Direction.downstream, (1, 2),
            [("bytes", 100)], true⟩,
          ⟨"other", "limit_data", Direction.downstream, (1, 2), [("bytes", 100)], true⟩],
        none) :=
  ⟨by decide,
    (PopulateToxicsJson_errors (specToxicOps exKinds) exWorld).2.2 exNoToxics
      (exMixedConfig.take 2) ⟨"zz", [exLimit]⟩ (exMixedConfig.drop 3) (by decide),
    by decide⟩

end ProxyCollection

end Toxiproxy
